import Mathlib

/-!
Verification development for the data loader of MetaMind/core-data-loader.

The embedding mirrors the two source files:
  * the loader module (`getDataLoader` with `loadData` / `deleteLoadedData`,
    the relation-graph inference `parent2childObjects` / `child2parentSObjects`,
    the field resolver `getFieldValue` / `updateFieldValues`, and `SOQL_REGEX`);
  * `file-system.ts` (`readJSONFile` / `writeJSONFile` behaviour, as visible
    through the loader).

JSON field values are modelled by the inductive `Value`.  The asynchronous
executor is modelled as a fuel-indexed sequential interpreter over an explicit
state; remote-store calls (`create`, `find`, `destroy`) and filesystem faults
are oracle functions supplied in `Env`.  The interpreter appends `Event`s to a
trace so that temporal claims can be stated as ordering properties of the
trace.
-/

/-- JSON-like field values: scalars, nested records (objects) and sequences. -/
inductive Value where
  | vNull : Value
  | vBool : Bool → Value
  | vNum : Int → Value
  | vStr : String → Value
  | vObj : List (String × Value) → Value
  | vArr : List Value → Value

/-- First-match association-list lookup (JS plain-object property read). -/
def lookupA {α : Type} : List (String × α) → String → Option α
  | [], _ => none
  | (k, v) :: rest, key => if k = key then some v else lookupA rest key

/-- Lookup with a default. -/
def lookupD {α : Type} (l : List (String × α)) (key : String) (d : α) : α :=
  match lookupA l key with
  | some v => v
  | none => d

/-- Overwrite the binding of `key` if present, else append it (JS property
assignment on a plain object keeps the original insertion position). -/
def upsertA {α : Type} : List (String × α) → String → α → List (String × α)
  | [], key, v => [(key, v)]
  | (k, w) :: rest, key, v =>
    if k = key then (k, v) :: rest else (k, w) :: upsertA rest key v

/-- `record[field]` on a record value; non-objects have no properties. -/
def getField : Value → String → Option Value
  | .vObj fs, key => lookupA fs key
  | _, _ => none

/-- `delete record[field]`: removes the property from an object. -/
def removeField : Value → String → Value
  | .vObj fs, key => .vObj (fs.filter (fun kv => kv.1 ≠ key))
  | v, _ => v

/-- Whether an object value carries the given property. -/
def hasField (v : Value) (key : String) : Bool :=
  (getField v key).isSome

/-- One hex digit (lower case), used for JSON control-character escapes. -/
def hexDigit (n : Nat) : Char :=
  if n < 10 then Char.ofNat (48 + n) else Char.ofNat (87 + n)

/-- JSON string escaping of a single character, as `JSON.stringify` does. -/
def escapeChar (c : Char) : List Char :=
  if c = '"' then ['\\', '"']
  else if c = '\\' then ['\\', '\\']
  else if c = '\n' then ['\\', 'n']
  else if c = '\r' then ['\\', 'r']
  else if c = '\t' then ['\\', 't']
  else if c = '\x08' then ['\\', 'b']
  else if c = '\x0c' then ['\\', 'f']
  else if c.toNat < 32 then
    ['\\', 'u', '0', '0', hexDigit (c.toNat / 16), hexDigit (c.toNat % 16)]
  else [c]

/-- JSON-escaped and quoted rendering of a string. -/
def jsonQuote (s : String) : String :=
  ⟨'"' :: (s.toList.flatMap escapeChar) ++ ['"']⟩

mutual
/-- `JSON.stringify(value)` (compact form, no indentation), as used by the
relation-graph inference. -/
def stringify : Value → String
  | .vNull => "null"
  | .vBool b => if b then "true" else "false"
  | .vNum n => toString n
  | .vStr s => jsonQuote s
  | .vObj fs => "\x7b" ++ stringifyFields fs ++ "\x7d"
  | .vArr es => "[" ++ stringifyElems es ++ "]"

/-- Comma-separated `"key":value` pairs of an object. -/
def stringifyFields : List (String × Value) → String
  | [] => ""
  | [(k, v)] => jsonQuote k ++ ":" ++ stringify v
  | (k, v) :: rest => jsonQuote k ++ ":" ++ stringify v ++ "," ++ stringifyFields rest

/-- Comma-separated array elements. -/
def stringifyElems : List Value → String
  | [] => ""
  | [v] => stringify v
  | v :: rest => stringify v ++ "," ++ stringifyElems rest
end

mutual
/-- JS `String(x)` coercion for the value shapes that can appear in a field
(template-literal interpolation): arrays join their elements with commas,
objects render as `[object Object]`. -/
def jsToString : Value → String
  | .vNull => "null"
  | .vBool b => if b then "true" else "false"
  | .vNum n => toString n
  | .vStr s => s
  | .vObj _ => "[object Object]"
  | .vArr es => String.intercalate "," (jsToStringElems es)

/-- Array elements under JS string coercion; `null` renders empty. -/
def jsToStringElems : List Value → List String
  | [] => []
  | .vNull :: rest => "" :: jsToStringElems rest
  | v :: rest => jsToString v :: jsToStringElems rest
end

/-- Interpolating a possibly-absent property into a template literal:
`undefined` prints as the text `undefined`. -/
def jsKey : Option Value → String
  | some v => jsToString v
  | none => "undefined"

/-- Boolean "is `pat` a prefix of `hay`". -/
def prefixEq : List Char → List Char → Bool
  | [], _ => true
  | _ :: _, [] => false
  | p :: ps, c :: cs => p == c && prefixEq ps cs

/-- Boolean substring occurrence, the model of `hay.indexOf(pat) >= 0`. -/
def subOccurs (pat : List Char) : List Char → Bool
  | [] => prefixEq pat []
  | c :: t => prefixEq pat (c :: t) || subOccurs pat t

/-- `hay.indexOf(pat) >= 0` on strings. -/
def strContains (hay pat : String) : Bool :=
  subOccurs pat.toList hay.toList

/-!
## The embedded-query pattern

`SOQL_REGEX = /SELECT\s+(.*?)\s+FROM\s+(.*?)\s+WHERE\s+(.*?)($|\s+ORDER BY\s+)/i`

The matcher below implements the JS regex semantics for exactly this pattern:
leftmost match wins, `\s+` is greedy with backtracking, `(.*?)` is lazy,
`.` matches any character except a line terminator, and (without the `m`
flag) `$` matches only at the very end of the string.  The alternation in
the fourth group tries `$` first, then `\s+ORDER BY\s+`.
-/

/-- The character class `\s` of JS regexes. -/
def jsWhitespace (c : Char) : Bool :=
  c == ' ' || c == '\t' || c == '\n' || c == '\r' || c == '\x0b' || c == '\x0c' ||
  c.toNat == 0xa0 || c.toNat == 0x1680 || (0x2000 ≤ c.toNat && c.toNat ≤ 0x200a) ||
  c.toNat == 0x2028 || c.toNat == 0x2029 || c.toNat == 0x202f ||
  c.toNat == 0x205f || c.toNat == 0x3000 || c.toNat == 0xfeff

/-- The metacharacter `.` of JS regexes (no `s` flag): anything but a line
terminator. -/
def jsDot (c : Char) : Bool :=
  !(c == '\n' || c == '\r' || c.toNat == 0x2028 || c.toNat == 0x2029)

/-- Match `\s+` then hand the rest to the continuation; greedy, so longer
whitespace runs are tried before shorter ones. -/
def wsPlusThen {α : Type} : List Char → (List Char → Option α) → Option α
  | [], _ => none
  | c :: rest, k =>
    if jsWhitespace c then wsPlusThen rest k <|> k rest else none

/-- Match a lazy `(.*?)`, handing the captured characters and the rest to the
continuation; shorter captures are tried first. -/
def lazyDotThen {α : Type} : List Char → (List Char → List Char → Option α) → Option α
  | [], k => k [] []
  | c :: rest, k =>
    k [] (c :: rest) <|>
      (if jsDot c then lazyDotThen rest (fun cap r => k (c :: cap) r) else none)

/-- Case-insensitive literal match (the pattern is given in lower case);
returns the rest of the input on success. -/
def litCI : List Char → List Char → Option (List Char)
  | [], s => some s
  | _ :: _, [] => none
  | p :: ps, c :: cs => if c.toLower == p then litCI ps cs else none

/-- The fourth group `($|\s+ORDER BY\s+)`: end of input, or a whitespace-framed
case-insensitive `ORDER BY`, in that order. -/
def soqlTail : List Char → Option Unit
  | [] => some ()
  | c :: rest =>
    wsPlusThen (c :: rest) (fun r =>
      (litCI ('o' :: 'r' :: 'd' :: 'e' :: 'r' :: ' ' :: 'b' :: 'y' :: []) r).bind (fun r2 =>
        wsPlusThen r2 (fun _ => some ())))

/-- Group 3 onwards: the lazy `(.*?)` before the tail group. -/
def soqlAfterWhere (g1 g2 : List Char) (r9 : List Char) : Option (String × String × String) :=
  lazyDotThen r9 fun g3 r10 => (soqlTail r10).map fun _ => (⟨g1⟩, ⟨g2⟩, ⟨g3⟩)

/-- The literal `WHERE` and the whitespace after it. -/
def soqlWherePart (g1 g2 : List Char) (r7 : List Char) : Option (String × String × String) :=
  (litCI ('w' :: 'h' :: 'e' :: 'r' :: 'e' :: []) r7).bind fun r8 =>
    wsPlusThen r8 (soqlAfterWhere g1 g2)

/-- Group 2: the lazy `(.*?)` between `FROM` and `WHERE`. -/
def soqlAfterFrom (g1 : List Char) (r5 : List Char) : Option (String × String × String) :=
  lazyDotThen r5 fun g2 r6 => wsPlusThen r6 (soqlWherePart g1 g2)

/-- The literal `FROM` and the whitespace after it. -/
def soqlFromPart (g1 : List Char) (r3 : List Char) : Option (String × String × String) :=
  (litCI ('f' :: 'r' :: 'o' :: 'm' :: []) r3).bind fun r4 =>
    wsPlusThen r4 (soqlAfterFrom g1)

/-- Group 1: the lazy `(.*?)` between `SELECT` and `FROM`. -/
def soqlAfterSelect (r1 : List Char) : Option (String × String × String) :=
  lazyDotThen r1 fun g1 r2 => wsPlusThen r2 (soqlFromPart g1)

/-- Attempt to match `SOQL_REGEX` starting exactly at the head of `s`,
returning the three captures (select list, collection, predicate). -/
def tryAt (s : List Char) : Option (String × String × String) :=
  (litCI ('s' :: 'e' :: 'l' :: 'e' :: 'c' :: 't' :: []) s).bind fun r0 =>
    wsPlusThen r0 soqlAfterSelect

/-- Leftmost-match search, the model of `value.match(SOQL_REGEX)` (the `i`
flag only, so the first match is returned). -/
def soqlSearch : List Char → Option (String × String × String)
  | [] => none
  | c :: rest => tryAt (c :: rest) <|> soqlSearch rest

/-- `value.match(SOQL_REGEX)` on a string, reduced to its three captures.  A
successful JS match of this pattern always has five entries, so the source
guard `matches && matches.length > 3` is equivalent to the match succeeding. -/
def soqlMatch (s : String) : Option (String × String × String) :=
  soqlSearch s.toList

/-!
## Environment and errors

Remote-store calls and filesystem faults are oracles.  `find` models
`$(collection).find(where, select).limit(1)` and returns the `Id`s of the
records of the (already limited) server response; its first argument is
whether the tooling connection was chosen for the collection.  `create`
models `$(collection).create(records)` returning per-record
`(success, id)`.  `findByIds`/`destroy` model the delete path's lookup and
batch destroy.  `writeOk` tells whether the underlying `writeFile` of
`fs.writeJSONFile` would succeed (the source does not await it).
`readFault` injects a non-missing-file error (e.g. a permission error) into
`fs.readJSONFile` for a collection's identifier file.
-/

/-- One entry of a remote batch-create (or batch-destroy) response. -/
structure CreateRes where
  success : Bool
  id : String

/-- The loader's collaborators and fixture data. -/
structure Env where
  sobjects : List String
  sobject2records : String → List Value
  toolingSObjects : List String
  find : Bool → String → String → String → List String
  create : String → List Value → List CreateRes
  findByIds : String → List String → List String
  destroy : String → List String → List CreateRes
  writeOk : String → List String → Bool
  readFault : String → Bool

/-- The run-scoped identity map `old2newId`. -/
abbrev IdMap := List (String × String)

/-- Errors thrown inside `loadData` / `deleteLoadedData`.  `fuelOut` and
`reentered` are artefacts of the terminating model: `reentered` marks a
memoized call awaiting its own still-pending promise, which in the source
is a deadlock possible only for cyclic inputs. -/
inductive Err where
  | fuelOut : Err
  | reentered : String → Err
  | lookupNotFound : String → Err
  | createFailed : String → Err
  | deleteFailed : String → Err
deriving DecidableEq

/-!
## The field resolver (`getFieldValue` / `updateFieldValues`)

`_.isObject` is true for JS objects and arrays, so both recurse;
`_.isString` singles out strings; a string is first tried as an embedded
query against `SOQL_REGEX`, then (`if (old2newId[value])`, a JS truthiness
test, so an empty-string mapping does not fire) against the identity map;
anything else is returned unchanged.
-/

/-- The query branch of `getFieldValue`: issue the find on the tooling or
standard connection (`$(soqlFrom)`), take the first of the limited result,
throw naming the original query text when empty, else the found `Id`. -/
def queryResolve (env : Env) (s sel frm whr : String) : Except Err Value :=
  match (env.find (env.toolingSObjects.contains frm) frm whr sel).head? with
  | none => .error (.lookupNotFound s)
  | some foundId => .ok (.vStr foundId)

mutual
/-- `getFieldValue(field, value)` of the source (the `field` argument is
unused there beyond a commented-out lookup, and is omitted). -/
def getFieldValue (env : Env) (m : IdMap) : Value → Except Err Value
  | .vObj fs =>
    match resolveFields env m fs with
    | .error e => .error e
    | .ok fs2 => .ok (.vObj fs2)
  | .vArr es =>
    match resolveElems env m es with
    | .error e => .error e
    | .ok es2 => .ok (.vArr es2)
  | .vStr s =>
    match soqlMatch s with
    | some (sel, frm, whr) => queryResolve env s sel frm whr
    | none =>
      match lookupA m s with
      | some newId => if newId ≠ "" then .ok (.vStr newId) else .ok (.vStr s)
      | none => .ok (.vStr s)
  | v => .ok v

/-- Resolve every property of an object, as `updateFieldValues` does over
`Object.keys(record)`. -/
def resolveFields (env : Env) (m : IdMap) :
    List (String × Value) → Except Err (List (String × Value))
  | [] => .ok []
  | (k, v) :: rest =>
    match getFieldValue env m v with
    | .error e => .error e
    | .ok v2 =>
      match resolveFields env m rest with
      | .error e => .error e
      | .ok rest2 => .ok ((k, v2) :: rest2)

/-- Resolve every element of an array (arrays are `_.isObject`, so their
indices are the keys `updateFieldValues` walks). -/
def resolveElems (env : Env) (m : IdMap) : List Value → Except Err (List Value)
  | [] => .ok []
  | v :: rest =>
    match getFieldValue env m v with
    | .error e => .error e
    | .ok v2 =>
      match resolveElems env m rest with
      | .error e => .error e
      | .ok rest2 => .ok (v2 :: rest2)
end

/-- `updateFieldValues(record)`: resolve each property in place and return
the record.  On a non-object the `Object.keys` walk assigns nothing. -/
def updateFieldValues (env : Env) (m : IdMap) : Value → Except Err Value
  | .vObj fs =>
    match resolveFields env m fs with
    | .error e => .error e
    | .ok fs2 => .ok (.vObj fs2)
  | .vArr es =>
    match resolveElems env m es with
    | .error e => .error e
    | .ok es2 => .ok (.vArr es2)
  | v => .ok v

/-- `Promise.all(records.map(updateFieldValues))`, sequentialized. -/
def resolveRecords (env : Env) (m : IdMap) : List Value → Except Err (List Value)
  | [] => .ok []
  | r :: rest =>
    match updateFieldValues env m r with
    | .error e => .error e
    | .ok r2 =>
      match resolveRecords env m rest with
      | .error e => .error e
      | .ok rest2 => .ok (r2 :: rest2)

/-!
## Relation-graph inference

`parent2childObjects[P]` keeps the collections `C` other than `P` such that
some record of `P` has an `id` whose quoted text occurs in
`JSON.stringify` of `C`'s record array; `child2parentSObjects` is its
converse, read off from the first map.
-/

/-- The `childrenOf` adjacency built at loader creation. -/
def parent2childObjects (env : Env) (parentS : String) : List String :=
  (env.sobjects.filter (fun childS => parentS != childS)).filter
    (fun childS => (env.sobject2records parentS).any
      (fun pr => strContains (stringify (.vArr (env.sobject2records childS)))
        ("\"" ++ jsKey (getField pr "id") ++ "\"")))

/-- The `parentsOf` adjacency: `P` is a parent of `C` iff `C` is listed among
`P`'s children. -/
def child2parentSObjects (env : Env) (childS : String) : List String :=
  env.sobjects.filter (fun parentS => (parent2childObjects env parentS).contains childS)

/-!
## The executor

The asynchronous `loadData` / `deleteLoadedData` closures are modelled as a
fuel-indexed sequential interpreter.  `_.memoize` caches the promise of a
collection as soon as it is first requested; in the terminating model a
collection is `started` when its body begins and `completed` when it ends,
and a request for a started-but-not-completed collection (awaiting one's
own pending promise, a deadlock reachable only from cyclic inputs) is the
error `reentered`.  The interpreter appends events to a trace:
`startedLoad` at the body's entry, `resolveStart` when the collection's
field resolution begins, `merged` when its `(old, new)` id pairs have been
merged into `old2newId`, and symmetrically for deletion, with `destroyed`
marking the batch-destroy call and `deleteDone` the completion of a
collection's `deleteOne` (on either the skip or the destroy path).
-/

/-- Observable steps of a run. -/
inductive Event where
  | startedLoad : String → Event
  | resolveStart : String → Event
  | merged : String → Event
  | startedDelete : String → Event
  | destroyed : String → Event
  | deleteDone : String → Event
deriving DecidableEq

/-- Mutable state of one `loadData` run.  `recordStore` is the shared
`sobject2records` mapping, which the source mutates in place; `files` are
the per-collection identifier files written so far by this run. -/
structure LoadState where
  old2newId : IdMap
  started : List String
  completed : List String
  files : List (String × List String)
  recordStore : List (String × List Value)
  trace : List Event

/-- Mark a collection's load as begun (the memoize cache now holds its
pending promise; `console.debug('creating', 'started', ...)`). -/
def markStarted (n : String) (st : LoadState) : LoadState :=
  { st with started := n :: st.started, trace := st.trace ++ [.startedLoad n] }

/-- The collection's field resolution is about to begin. -/
def markResolve (n : String) (st : LoadState) : LoadState :=
  { st with trace := st.trace ++ [.resolveStart n] }

/-- The collection's body finished: its promise resolves
(`console.debug('creating', 'done', ...)`). -/
def markDone (n : String) (st : LoadState) : LoadState :=
  { st with completed := n :: st.completed, trace := st.trace ++ [.merged n] }

/-- Lines 171-191 of the loader body, after field resolution: capture the
(resolved) `id` of every record, delete `id` in place, batch-create, throw
`CreateFailed` naming the collection if any result failed, fire the
(unawaited inside `fs.writeJSONFile`) identifier-file write, and merge
`zipObject(oldIds, newIds)` into `old2newId`. -/
def createAndRecord (env : Env) (sobject : String) (resolved : List Value)
    (st : LoadState) : Except (Err × LoadState) LoadState :=
  let oldIds := resolved.map (fun r => jsKey (getField r "id"))
  let stripped := resolved.map (fun r => removeField r "id")
  let st1 := { st with recordStore := upsertA st.recordStore sobject stripped }
  let results := env.create sobject stripped
  if results.any (fun r => !r.success) then
    .error (.createFailed sobject, st1)
  else
    let newIds := results.map (fun r => r.id)
    let st2 := if env.writeOk sobject newIds then
                 { st1 with files := upsertA st1.files sobject newIds }
               else st1
    let mergedMap := (List.zip oldIds newIds).foldl
      (fun acc kv => upsertA acc kv.1 kv.2) st2.old2newId
    .ok { st2 with old2newId := mergedMap }

/-- A `for (... of list) await f(...)` loop threading the state, stopping at
the first rejection. -/
def runSeq {σ ε : Type} (f : String → σ → Except (ε × σ) σ) :
    List String → σ → Except (ε × σ) σ
  | [], st => .ok st
  | p :: ps, st =>
    match f p st with
    | .error e => .error e
    | .ok st1 => runSeq f ps st1

/-- The memoized `loadSObjectData(sobject)`: load every parent first, then
resolve this collection's fields, then create, persist and merge. -/
def loadSObjectData (env : Env) : Nat → String → LoadState → Except (Err × LoadState) LoadState
  | 0, _, st => .error (.fuelOut, st)
  | fuel + 1, sobject, st =>
    if sobject ∈ st.completed then .ok st
    else if sobject ∈ st.started then .error (.reentered sobject, st)
    else
      let st0 := markStarted sobject st
      match runSeq (fun p stp => loadSObjectData env fuel p stp)
          (child2parentSObjects env sobject) st0 with
      | .error e => .error e
      | .ok st1 =>
        let st2 := markResolve sobject st1
        match resolveRecords env st2.old2newId (lookupD st2.recordStore sobject []) with
        | .error e => .error (e, st2)
        | .ok resolved =>
          match createAndRecord env sobject resolved st2 with
          | .error e => .error e
          | .ok st3 => .ok (markDone sobject st3)

/-- `for (const parentSObject of ...) await loadSObjectData(parentSObject)` —
also the shape of the top-level `for (const o of sobjects)` loop. -/
def loadParents (env : Env) (fuel : Nat) :
    List String → LoadState → Except (Err × LoadState) LoadState :=
  runSeq (fun p stp => loadSObjectData env fuel p stp)

/-- The fresh state a `loadData` call starts from: empty identity map, empty
memoize cache, the record store as read from the fixtures. -/
def initLoadState (env : Env) : LoadState :=
  { old2newId := []
    started := []
    completed := []
    files := []
    recordStore := env.sobjects.map (fun s => (s, env.sobject2records s))
    trace := [] }

/-- `loadData()`: walk every collection; the resolved state carries the final
`old2newId` that the source returns. -/
def loadData (env : Env) (fuel : Nat) : Except (Err × LoadState) LoadState :=
  loadParents env fuel env.sobjects (initLoadState env)

/-- The state a run ends in, whether it resolved or rejected. -/
def stateOf : Except (Err × LoadState) LoadState → LoadState
  | .ok st => st
  | .error (_, st) => st

/-- Mutable state of one `deleteLoadedData` run. -/
structure DelState where
  started : List String
  completed : List String
  files : List (String × List String)
  trace : List Event

/-- Filesystem errors surfaced by `fs.readJSONFile`. -/
inductive FsErr where
  | enoent : FsErr
  | eacces : FsErr
deriving DecidableEq

/-- `fs.readJSONFile(sobjectIdsFile)`: a missing file fails with `enoent`;
an injected fault (e.g. a permission error) fails with `eacces`. -/
def readIdsFile (env : Env) (st : DelState) (sobject : String) :
    Except FsErr (List String) :=
  if env.readFault sobject then .error .eacces
  else
    match lookupA st.files sobject with
    | none => .error .enoent
    | some ids => .ok ids

/-- Mark a collection's delete as begun. -/
def markStartedD (n : String) (st : DelState) : DelState :=
  { st with started := n :: st.started, trace := st.trace ++ [.startedDelete n] }

/-- A collection's `deleteOne` finished (skip path or destroy path). -/
def markDoneD (n : String) (st : DelState) : DelState :=
  { st with completed := n :: st.completed, trace := st.trace ++ [.deleteDone n] }

/-- The memoized `deleteLoadedSObjectData(sobject)`.  Reading the identifier
file sits in a `try`/`catch` whose handler only logs and returns, so every
read failure is absorbed into the skip path; afterwards the live records are
found by id and batch-destroyed, failing with `DeleteFailed` naming the
collection if any result reports failure.  Nothing ever removes the
identifier file: the source's final step is only a `console.debug`. -/
def deleteLoadedSObjectData (env : Env) : Nat → String → DelState → Except (Err × DelState) DelState
  | 0, _, st => .error (.fuelOut, st)
  | fuel + 1, sobject, st =>
    if sobject ∈ st.completed then .ok st
    else if sobject ∈ st.started then .error (.reentered sobject, st)
    else
      let st0 := markStartedD sobject st
      match runSeq (fun c stc => deleteLoadedSObjectData env fuel c stc)
          (parent2childObjects env sobject) st0 with
      | .error e => .error e
      | .ok st1 =>
        match readIdsFile env st1 sobject with
        | .error _ => .ok (markDoneD sobject st1)
        | .ok ids =>
          let recs := env.findByIds sobject ids
          let ress := env.destroy sobject recs
          let st2 := { st1 with trace := st1.trace ++ [.destroyed sobject] }
          if ress.any (fun r => !r.success) then .error (.deleteFailed sobject, st2)
          else .ok (markDoneD sobject st2)

/-- `for (const childSObject of ...) await deleteLoadedSObjectData(...)` —
also the shape of the top-level loop of `deleteLoadedData`. -/
def deleteChildren (env : Env) (fuel : Nat) :
    List String → DelState → Except (Err × DelState) DelState :=
  runSeq (fun c stc => deleteLoadedSObjectData env fuel c stc)

/-- `deleteLoadedData()`, starting from the identifier files currently on
disk. -/
def deleteLoadedData (env : Env) (fuel : Nat) (files0 : List (String × List String)) :
    Except (Err × DelState) DelState :=
  deleteChildren env fuel env.sobjects
    { started := [], completed := [], files := files0, trace := [] }

/-- The state a delete run ends in, whether it resolved or rejected. -/
def stateOfD : Except (Err × DelState) DelState → DelState
  | .ok st => st
  | .error (_, st) => st

/-!
## Substring occurrence, characterized
-/

/-- `prefixEq` finds exactly the literal prefixes. -/
theorem prefixEq_iff (pat : List Char) :
    ∀ hay, prefixEq pat hay = true ↔ ∃ rest, hay = pat ++ rest := by
  induction pat with
  | nil => intro hay; simp [prefixEq]
  | cons p ps ih =>
    intro hay
    cases hay with
    | nil => simp [prefixEq]
    | cons c cs =>
      simp only [prefixEq, Bool.and_eq_true, beq_iff_eq, ih, List.cons_append,
        List.cons.injEq]
      constructor
      · rintro ⟨rfl, rest, rfl⟩; exact ⟨rest, rfl, rfl⟩
      · rintro ⟨rest, rfl, rfl⟩; exact ⟨rfl, rest, rfl⟩

/-- `subOccurs` (the model of `indexOf(...) >= 0`) finds exactly the substring
occurrences. -/
theorem subOccurs_iff (pat : List Char) :
    ∀ hay, subOccurs pat hay = true ↔ ∃ pre post, hay = pre ++ pat ++ post := by
  intro hay
  induction hay with
  | nil => simp [subOccurs, prefixEq_iff]
  | cons c t ih =>
    simp only [subOccurs, Bool.or_eq_true, prefixEq_iff, ih]
    constructor
    · rintro (⟨rest, h⟩ | ⟨pre, post, h⟩)
      · exact ⟨[], rest, by simp [h]⟩
      · exact ⟨c :: pre, post, by simp [h]⟩
    · rintro ⟨pre, post, h⟩
      cases pre with
      | nil => exact Or.inl ⟨post, by simpa using h⟩
      | cons d pre2 =>
        right
        refine ⟨pre2, post, ?_⟩
        simp only [List.cons_append] at h
        exact (List.cons.inj h).2

/-- `strContains hay pat` holds exactly when `pat` occurs inside `hay`. -/
theorem strContains_iff (hay pat : String) :
    strContains hay pat = true ↔
      ∃ pre post, hay.toList = pre ++ pat.toList ++ post := by
  exact subOccurs_iff pat.toList hay.toList

/-!
## Concrete environments used by witnesses and counterexamples
-/

/-- A two-collection fixture: `Child` references `Parent`'s record id `p1`. -/
def envPair : Env :=
  { sobjects := ["Child", "Parent"]
    sobject2records := fun s =>
      if s = "Parent" then [.vObj [("id", .vStr "p1"), ("name", .vStr "Acme")]]
      else if s = "Child" then [.vObj [("id", .vStr "c1"), ("parentRef", .vStr "p1")]]
      else []
    toolingSObjects := []
    find := fun _ _ _ _ => []
    create := fun s recs => recs.map (fun _ => { success := true, id := "new" ++ s })
    findByIds := fun _ ids => ids
    destroy := fun _ ids => ids.map (fun i => { success := true, id := i })
    writeOk := fun _ _ => true
    readFault := fun _ => false }

/-- A one-collection fixture with an all-success remote store. -/
def envSolo : Env :=
  { sobjects := ["A"]
    sobject2records := fun s =>
      if s = "A" then [.vObj [("id", .vStr "a1"), ("name", .vStr "x")]] else []
    toolingSObjects := []
    find := fun _ _ _ _ => ["F1"]
    create := fun _ recs => recs.map (fun _ => { success := true, id := "n1" })
    findByIds := fun _ ids => ids
    destroy := fun _ ids => ids.map (fun i => { success := true, id := i })
    writeOk := fun _ _ => true
    readFault := fun _ => false }

/-- Like `envSolo`, but persisting the identifier file fails. -/
def envWriteFail : Env := { envSolo with writeOk := fun _ _ => false }

/-- Like `envSolo`, but every batch create reports a failed record. -/
def envCreateFail : Env :=
  { envSolo with create := fun _ _ => [{ success := false, id := "" }] }

/-- Like `envSolo`, but reading `A`'s identifier file raises a non-missing
error (a permission failure). -/
def envFault : Env := { envSolo with readFault := fun s => s = "A" }

/-- C5: for every pair of collections (P, C), the built RelationGraph has C in
childrenOf[P] (equivalently P in parentsOf[C]) iff C ≠ P and the serialized
records of C contain the exact-quoted identifier of some record of P; no
collection is its own parent or child. -/
theorem c5_relation_graph (env : Env) :
    (∀ P C, C ∈ env.sobjects →
      (C ∈ parent2childObjects env P ↔
        C ≠ P ∧ ∃ r ∈ env.sobject2records P, ∃ pre post,
          (stringify (.vArr (env.sobject2records C))).toList =
            pre ++ ("\"" ++ jsKey (getField r "id") ++ "\"").toList ++ post)) ∧
    (∀ P C, P ∈ child2parentSObjects env C ↔
      P ∈ env.sobjects ∧ C ∈ parent2childObjects env P) ∧
    (∀ C, C ∉ parent2childObjects env C ∧ C ∉ child2parentSObjects env C) := by
  have hmem : ∀ P C, C ∈ parent2childObjects env P ↔
      (C ∈ env.sobjects ∧ C ≠ P) ∧ ∃ r ∈ env.sobject2records P, ∃ pre post,
        (stringify (.vArr (env.sobject2records C))).toList =
          pre ++ ("\"" ++ jsKey (getField r "id") ++ "\"").toList ++ post := by
    intro P C
    simp only [parent2childObjects, List.mem_filter, List.any_eq_true,
      strContains_iff, bne_iff_ne, ne_eq]
    constructor
    · rintro ⟨⟨hC, hne⟩, r, hr, h⟩
      exact ⟨⟨hC, fun hcp => hne hcp.symm⟩, r, hr, h⟩
    · rintro ⟨⟨hC, hne⟩, r, hr, h⟩
      exact ⟨⟨hC, fun hcp => hne hcp.symm⟩, r, hr, h⟩
  refine ⟨?_, ?_, ?_⟩
  · intro P C hC
    rw [hmem]
    constructor
    · rintro ⟨⟨_, hne⟩, h⟩; exact ⟨hne, h⟩
    · rintro ⟨hne, h⟩; exact ⟨⟨hC, hne⟩, h⟩
  · intro P C
    simp only [child2parentSObjects, List.mem_filter, List.elem_iff]
  · intro C
    constructor
    · intro h
      exact ((hmem C C).mp h).1.2 rfl
    · intro h
      simp only [child2parentSObjects, List.mem_filter, List.elem_iff] at h
      exact ((hmem C C).mp h.2).1.2 rfl

/-- Witness for C5 at the `Parent`/`Child` fixture. -/
theorem c5_relation_graph_witness :
    "Child" ∈ envPair.sobjects ∧
    ("Child" ∈ parent2childObjects envPair "Parent" ↔
      "Child" ≠ "Parent" ∧ ∃ r ∈ envPair.sobject2records "Parent", ∃ pre post,
        (stringify (.vArr (envPair.sobject2records "Child"))).toList =
          pre ++ ("\"" ++ jsKey (getField r "id") ++ "\"").toList ++ post) :=
  ⟨by decide, (c5_relation_graph envPair).1 "Parent" "Child" (by decide)⟩

/-- C4 counterexample: the claim's step 4 fails as stated.  With the identity
map sending `"a"` to the new identifier `""`, the value `"a"` is not
query-shaped and exactly equals a key of the map, yet `getFieldValue`
returns it unchanged instead of replacing it with the mapped identifier:
the source tests `old2newId[value]` for JS truthiness, and the empty string
is falsy. -/
theorem c4_resolve_policy_counterexample :
    soqlMatch "a" = none ∧
    lookupA [("a", "")] "a" = some "" ∧
    getFieldValue envSolo [("a", "")] (.vStr "a") = .ok (.vStr "a") ∧
    Value.vStr "a" ≠ Value.vStr "" := by
  refine ⟨rfl, rfl, rfl, ?_⟩
  intro h
  simp at h

/-- C4 (amended): `resolve(v, m)` follows the ordered policy — a nested
record (or sequence, which `_.isObject` also admits) is resolved
member-by-member recursively; a non-string scalar is returned unchanged; a
string matching the query pattern is resolved by a remote find limited to
one result, failing with `LookupNotFound` naming the original query text on
zero results, and this query routing applies even when the string is also a
key of `m`; otherwise a string equal to a key of `m` whose mapped new
identifier is non-empty (truthy) is replaced by that identifier, while a
key mapped to the empty string, and any other string, is returned
unchanged. -/
theorem c4_resolve_policy (env : Env) (m : IdMap) :
    (∀ fs, getFieldValue env m (.vObj fs) =
      match resolveFields env m fs with
      | .error e => .error e
      | .ok fs2 => .ok (.vObj fs2)) ∧
    (∀ es, getFieldValue env m (.vArr es) =
      match resolveElems env m es with
      | .error e => .error e
      | .ok es2 => .ok (.vArr es2)) ∧
    (getFieldValue env m .vNull = .ok .vNull ∧
     (∀ b, getFieldValue env m (.vBool b) = .ok (.vBool b)) ∧
     (∀ n, getFieldValue env m (.vNum n) = .ok (.vNum n))) ∧
    (∀ s sel frm whr, soqlMatch s = some (sel, frm, whr) →
      getFieldValue env m (.vStr s) = queryResolve env s sel frm whr) ∧
    (∀ s sel frm whr, soqlMatch s = some (sel, frm, whr) →
      env.find (env.toolingSObjects.contains frm) frm whr sel = [] →
      getFieldValue env m (.vStr s) = .error (.lookupNotFound s)) ∧
    (∀ s newId, soqlMatch s = none → lookupA m s = some newId → newId ≠ "" →
      getFieldValue env m (.vStr s) = .ok (.vStr newId)) ∧
    (∀ s, soqlMatch s = none → (lookupA m s = none ∨ lookupA m s = some "") →
      getFieldValue env m (.vStr s) = .ok (.vStr s)) := by
  refine ⟨fun fs => rfl, fun es => rfl, ⟨rfl, fun b => rfl, fun n => rfl⟩, ?_, ?_, ?_, ?_⟩
  · intro s sel frm whr h
    simp only [getFieldValue, h]
  · intro s sel frm whr h hfind
    simp only [getFieldValue, h, queryResolve, hfind, List.head?]
  · intro s newId h hl hne
    simp only [getFieldValue, h, hl, if_pos hne]
  · intro s h hl
    rcases hl with hl | hl
    · simp only [getFieldValue, h, hl]
    · simp only [getFieldValue, h, hl, ne_eq, not_true_eq_false, if_neg, ite_false]

/-- Witness for C4 (amended) at a concrete map hit: `"p1"` is not
query-shaped, is a key of the map with truthy image `"N1"`, and resolves to
`"N1"`. -/
theorem c4_resolve_policy_witness :
    soqlMatch "p1" = none ∧
    lookupA [("p1", "N1")] "p1" = some "N1" ∧ "N1" ≠ "" ∧
    getFieldValue envSolo [("p1", "N1")] (.vStr "p1") = .ok (.vStr "N1") :=
  ⟨rfl, rfl, by decide,
    (c4_resolve_policy envSolo [("p1", "N1")]).2.2.2.2.2.1 "p1" "N1" rfl rfl (by decide)⟩

/-!
## Success lemmas for the matcher
-/

/-- `orElse` succeeds when its first alternative does. -/
theorem orElse_isSome_left {α : Type} (a : Option α) (b : Option α)
    (h : a.isSome = true) : (a <|> b).isSome = true := by
  cases a with
  | none => simp at h
  | some x => rfl

/-- `orElse` succeeds when its second alternative does. -/
theorem orElse_isSome_right {α : Type} (a : Option α) (b : Option α)
    (h : b.isSome = true) : (a <|> b).isSome = true := by
  cases a with
  | none => simpa using h
  | some x => rfl

/-- `\s+` succeeds on one whitespace character when the continuation accepts
the rest. -/
theorem wsPlusThen_isSome {α : Type} (c : Char) (r : List Char)
    (k : List Char → Option α) (hc : jsWhitespace c = true)
    (h : (k r).isSome = true) : (wsPlusThen (c :: r) k).isSome = true := by
  simp only [wsPlusThen, hc, if_true]
  exact orElse_isSome_right _ _ h

/-- A lazy `(.*?)` succeeds whenever some split of the input into
dot-matchable characters and a rest makes the continuation succeed. -/
theorem lazyDotThen_isSome_aux {α : Type} :
    ∀ (cap : List Char) (r : List Char) (k : List Char → List Char → Option α),
    (∀ c ∈ cap, jsDot c = true) → (k cap r).isSome = true →
    (lazyDotThen (cap ++ r) k).isSome = true := by
  intro cap
  induction cap with
  | nil =>
    intro r k _ h
    cases r with
    | nil => simpa [lazyDotThen] using h
    | cons c t => exact orElse_isSome_left _ _ h
  | cons c cs ih =>
    intro r k hdot h
    show (lazyDotThen (c :: (cs ++ r)) k).isSome = true
    apply orElse_isSome_right
    rw [if_pos (hdot c (List.mem_cons_self c cs))]
    exact ih r (fun cap2 r2 => k (c :: cap2) r2) (fun d hd => hdot d (List.mem_cons_of_mem c hd)) h

/-- `lazyDotThen_isSome_aux`, stated through an explicit decomposition. -/
theorem lazyDotThen_isSome {α : Type} (s cap r : List Char)
    (k : List Char → List Char → Option α) (hs : s = cap ++ r)
    (hdot : ∀ c ∈ cap, jsDot c = true) (h : (k cap r).isSome = true) :
    (lazyDotThen s k).isSome = true := by
  rw [hs]; exact lazyDotThen_isSome_aux cap r k hdot h

/-- Consuming the literal `SELECT`. -/
theorem tryAt_step (xs : List Char) :
    tryAt ('S' :: 'E' :: 'L' :: 'E' :: 'C' :: 'T' :: xs) =
      wsPlusThen xs soqlAfterSelect := rfl

/-- Consuming the literal `FROM`. -/
theorem soqlFromPart_step (g1 : List Char) (xs : List Char) :
    soqlFromPart g1 ('F' :: 'R' :: 'O' :: 'M' :: xs) =
      wsPlusThen xs (soqlAfterFrom g1) := rfl

/-- Consuming the literal `WHERE`. -/
theorem soqlWherePart_step (g1 g2 : List Char) (xs : List Char) :
    soqlWherePart g1 g2 ('W' :: 'H' :: 'E' :: 'R' :: 'E' :: xs) =
      wsPlusThen xs (soqlAfterWhere g1 g2) := rfl

/-- A value containing a query-shaped text: an arbitrary prefix, then
`SELECT <sel> FROM <frm> WHERE <whr>` running to the end of the string. -/
def soqlProbe (pre sel frm whr : List Char) : List Char :=
  pre ++ ('S' :: 'E' :: 'L' :: 'E' :: 'C' :: 'T' :: ' ' ::
    (sel ++ (' ' :: 'F' :: 'R' :: 'O' :: 'M' :: ' ' ::
      (frm ++ (' ' :: 'W' :: 'H' :: 'E' :: 'R' :: 'E' :: ' ' :: whr)))))

/-- The pattern matches at the start of the query-shaped tail whenever the
wildcard segments consist of `.`-matchable characters. -/
theorem tryAt_probe_isSome (sel frm whr : List Char)
    (hsel : ∀ c ∈ sel, jsDot c = true)
    (hfrm : ∀ c ∈ frm, jsDot c = true)
    (hwhr : ∀ c ∈ whr, jsDot c = true) :
    (tryAt ('S' :: 'E' :: 'L' :: 'E' :: 'C' :: 'T' :: ' ' ::
      (sel ++ (' ' :: 'F' :: 'R' :: 'O' :: 'M' :: ' ' ::
        (frm ++ (' ' :: 'W' :: 'H' :: 'E' :: 'R' :: 'E' :: ' ' :: whr)))))).isSome = true := by
  have h3 : (soqlAfterWhere sel frm whr).isSome = true := by
    apply lazyDotThen_isSome whr whr [] _ (List.append_nil whr).symm hwhr
    rfl
  have hW : (soqlWherePart sel frm
      ('W' :: 'H' :: 'E' :: 'R' :: 'E' :: ' ' :: whr)).isSome = true := by
    rw [soqlWherePart_step]
    exact wsPlusThen_isSome ' ' whr (soqlAfterWhere sel frm) rfl h3
  have h2 : (soqlAfterFrom sel
      (frm ++ (' ' :: 'W' :: 'H' :: 'E' :: 'R' :: 'E' :: ' ' :: whr))).isSome = true := by
    apply lazyDotThen_isSome _ frm (' ' :: 'W' :: 'H' :: 'E' :: 'R' :: 'E' :: ' ' :: whr) _ rfl hfrm
    exact wsPlusThen_isSome ' ' _ (soqlWherePart sel frm) rfl hW
  have hF : (soqlFromPart sel ('F' :: 'R' :: 'O' :: 'M' :: ' ' ::
      (frm ++ (' ' :: 'W' :: 'H' :: 'E' :: 'R' :: 'E' :: ' ' :: whr)))).isSome = true := by
    rw [soqlFromPart_step]
    exact wsPlusThen_isSome ' ' _ (soqlAfterFrom sel) rfl h2
  have h1 : (soqlAfterSelect (sel ++ (' ' :: 'F' :: 'R' :: 'O' :: 'M' :: ' ' ::
      (frm ++ (' ' :: 'W' :: 'H' :: 'E' :: 'R' :: 'E' :: ' ' :: whr))))).isSome = true := by
    apply lazyDotThen_isSome _ sel _ _ rfl hsel
    exact wsPlusThen_isSome ' ' _ (soqlFromPart sel) rfl hF
  rw [tryAt_step]
  exact wsPlusThen_isSome ' ' _ soqlAfterSelect rfl h1

/-- Leftmost search finds a match whenever the pattern matches at some
position. -/
theorem soqlSearch_isSome_append (l1 : List Char) (c : Char) (t : List Char)
    (h : (tryAt (c :: t)).isSome = true) :
    (soqlSearch (l1 ++ (c :: t))).isSome = true := by
  induction l1 with
  | nil => exact orElse_isSome_left _ _ h
  | cons d ds ih => exact orElse_isSome_right _ _ ih

/-- C10: a string field value that merely contains, anywhere inside it, a
substring of the form `SELECT ... FROM ... WHERE ...` (wildcard segments
made of `.`-matchable characters, as the pattern's own wildcards demand) is
treated as an embedded query by the resolver: the pattern is not anchored,
so an arbitrary prefix may precede the query text, and the resolver issues
the remote lookup even though the string as a whole is not a query
expression. -/
theorem c10_unanchored_query (env : Env) (m : IdMap) (pre sel frm whr : List Char)
    (hsel : ∀ c ∈ sel, jsDot c = true)
    (hfrm : ∀ c ∈ frm, jsDot c = true)
    (hwhr : ∀ c ∈ whr, jsDot c = true) :
    ∃ g1 g2 g3,
      soqlMatch (String.mk (soqlProbe pre sel frm whr)) = some (g1, g2, g3) ∧
      getFieldValue env m (.vStr (String.mk (soqlProbe pre sel frm whr))) =
        queryResolve env (String.mk (soqlProbe pre sel frm whr)) g1 g2 g3 := by
  have hs : (soqlSearch (soqlProbe pre sel frm whr)).isSome = true := by
    exact soqlSearch_isSome_append pre 'S' _ (tryAt_probe_isSome sel frm whr hsel hfrm hwhr)
  rcases Option.isSome_iff_exists.mp hs with ⟨⟨g1, g2, g3⟩, hg⟩
  have hq : soqlMatch (String.mk (soqlProbe pre sel frm whr)) = some (g1, g2, g3) := hg
  refine ⟨g1, g2, g3, hq, ?_⟩
  simp only [getFieldValue, hq]

/-- Witness for C10: the non-query prefix `note: ` does not prevent the
embedded query from being detected and routed to a remote lookup. -/
theorem c10_unanchored_query_witness :
    soqlMatch (String.mk (soqlProbe "note: ".toList "Id".toList "Account".toList "Name=Acme".toList)) =
      some ("Id", "Account", "Name=Acme") ∧
    getFieldValue envSolo []
        (.vStr (String.mk (soqlProbe "note: ".toList "Id".toList "Account".toList "Name=Acme".toList))) =
      queryResolve envSolo
        (String.mk (soqlProbe "note: ".toList "Id".toList "Account".toList "Name=Acme".toList))
        "Id" "Account" "Name=Acme" := by
  obtain ⟨g1, g2, g3, h1, h2⟩ :=
    c10_unanchored_query envSolo [] "note: ".toList "Id".toList "Account".toList "Name=Acme".toList
      (by decide) (by decide) (by decide)
  have h1s : soqlMatch (String.mk (soqlProbe "note: ".toList "Id".toList "Account".toList "Name=Acme".toList)) =
      some ("Id", "Account", "Name=Acme") := rfl
  rw [h1] at h1s
  simp only [Option.some.injEq, Prod.mk.injEq] at h1s
  obtain ⟨hg1, hg2, hg3⟩ := h1s
  subst hg1
  subst hg2
  subst hg3
  exact ⟨h1, h2⟩

/-!
## Trace-ordering machinery
-/

/-- Every occurrence of `e2` in the trace is preceded by an occurrence of
`e1`. -/
def PrecedesAll (t : List Event) (e1 e2 : Event) : Prop :=
  ∀ j : Nat, t[j]? = some e2 → ∃ i : Nat, i < j ∧ t[i]? = some e1

/-- The empty trace orders everything vacuously. -/
theorem precedesAll_nil (e1 e2 : Event) : PrecedesAll [] e1 e2 := by
  intro j hj
  simp at hj

/-- An index with an element is in range. -/
theorem getElem?_lt_length {α : Type} {l : List α} {i : Nat} {a : α}
    (h : l[i]? = some a) : i < l.length := by
  by_contra hge
  rw [List.getElem?_eq_none (Nat.le_of_not_lt hge)] at h
  cases h

/-- Appending an event other than `e2` preserves the ordering. -/
theorem precedesAll_append_ne {t : List Event} {e1 e2 ev : Event}
    (h : PrecedesAll t e1 e2) (hne : ev ≠ e2) : PrecedesAll (t ++ [ev]) e1 e2 := by
  intro j hj
  by_cases hlt : j < t.length
  · rw [List.getElem?_append_left hlt] at hj
    obtain ⟨i, hij, hi⟩ := h j hj
    exact ⟨i, hij, by rw [List.getElem?_append_left (Nat.lt_trans hij hlt)]; exact hi⟩
  · rw [List.getElem?_append_right (Nat.le_of_not_lt hlt)] at hj
    have hev : ev = e2 := by
      have hjlen : j - t.length < 1 := by
        have := getElem?_lt_length hj
        simpa using this
      interval_cases h : (j - t.length)
      · rw [List.getElem?_cons_zero] at hj
        exact Option.some.inj hj
    exact absurd hev hne

/-- Appending anything preserves the ordering when `e1` already occurred. -/
theorem precedesAll_append_mem {t : List Event} {e1 e2 ev : Event}
    (h : PrecedesAll t e1 e2) (hm : e1 ∈ t) : PrecedesAll (t ++ [ev]) e1 e2 := by
  intro j hj
  by_cases hlt : j < t.length
  · rw [List.getElem?_append_left hlt] at hj
    obtain ⟨i, hij, hi⟩ := h j hj
    exact ⟨i, hij, by rw [List.getElem?_append_left (Nat.lt_trans hij hlt)]; exact hi⟩
  · obtain ⟨i, hi⟩ := List.mem_iff_getElem?.mp hm
    have hilen : i < t.length := getElem?_lt_length hi
    refine ⟨i, by omega, ?_⟩
    rw [List.getElem?_append_left hilen]
    exact hi

/-- Number of occurrences of an event in a trace. -/
def countE (e : Event) : List Event → Nat
  | [] => 0
  | f :: t => (if f = e then 1 else 0) + countE e t

/-- `countE` distributes over append. -/
theorem countE_append (e : Event) (t1 t2 : List Event) :
    countE e (t1 ++ t2) = countE e t1 + countE e t2 := by
  induction t1 with
  | nil => simp [countE]
  | cons f t ih =>
    show (if f = e then 1 else 0) + countE e (t ++ t2) =
      ((if f = e then 1 else 0) + countE e t) + countE e t2
    rw [ih]
    omega

/-- Strict ancestry in the inferred relation graph: the transitive closure
of "is listed among the parents of". -/
inductive Ancestor (env : Env) : String → String → Prop where
  | base {p c : String} : p ∈ child2parentSObjects env c → Ancestor env p c
  | step {a p c : String} : Ancestor env a p → p ∈ child2parentSObjects env c →
      Ancestor env a c

/-- An ancestor is a parent, or an ancestor of a parent. -/
theorem ancestor_cases {env : Env} {a c : String} (h : Ancestor env a c) :
    ∃ p ∈ child2parentSObjects env c, a = p ∨ Ancestor env a p := by
  cases h with
  | base hp => exact ⟨_, hp, Or.inl rfl⟩
  | step ha hp => exact ⟨_, hp, Or.inr ha⟩


/-!
## Association-list and field-stripping lemmas
-/

/-- Looking up the overwritten key finds the new value. -/
theorem lookupA_upsertA_self {α : Type} (l : List (String × α)) (k : String) (v : α) :
    lookupA (upsertA l k v) k = some v := by
  induction l with
  | nil => simp [upsertA, lookupA]
  | cons kv rest ih =>
    by_cases hk : kv.1 = k
    · simp [upsertA, hk, lookupA]
    · simp [upsertA, hk, lookupA, ih]

/-- Other keys are unaffected by an upsert. -/
theorem lookupA_upsertA_ne {α : Type} (l : List (String × α)) (k k2 : String) (v : α)
    (h : k2 ≠ k) : lookupA (upsertA l k v) k2 = lookupA l k2 := by
  induction l with
  | nil =>
    simp only [upsertA, lookupA]
    rw [if_neg (fun hh => h hh.symm)]
  | cons kv rest ih =>
    by_cases hk : kv.1 = k
    · subst hk
      simp only [upsertA, if_pos rfl, lookupA]
      rw [if_neg (fun hh => h hh.symm), if_neg (fun hh => h hh.symm)]
    · simp only [upsertA, if_neg hk, lookupA, ih]

/-- `lookupD` after an upsert of the same key. -/
theorem lookupD_upsertA_self {α : Type} (l : List (String × α)) (k : String) (v d : α) :
    lookupD (upsertA l k v) k d = v := by
  unfold lookupD
  rw [lookupA_upsertA_self]

/-- `lookupD` after an upsert of a different key. -/
theorem lookupD_upsertA_ne {α : Type} (l : List (String × α)) (k k2 : String) (v d : α)
    (h : k2 ≠ k) : lookupD (upsertA l k v) k2 d = lookupD l k2 d := by
  unfold lookupD
  rw [lookupA_upsertA_ne _ _ _ _ h]

/-- A property deleted from an object cannot be looked up any more. -/
theorem lookupA_filter_ne (fs : List (String × Value)) (key : String) :
    lookupA (fs.filter (fun kv => kv.1 ≠ key)) key = none := by
  induction fs with
  | nil => rfl
  | cons kv rest ih =>
    rw [List.filter_cons]
    by_cases hk : kv.1 = key
    · rw [if_neg (by simp [hk])]
      exact ih
    · rw [if_pos (by simp [hk])]
      show (if kv.1 = key then some kv.2 else
        lookupA (rest.filter (fun kv => kv.1 ≠ key)) key) = none
      rw [if_neg hk]
      exact ih

/-- `delete record[key]` leaves no `key` property behind. -/
theorem hasField_removeField (v : Value) (key : String) :
    hasField (removeField v key) key = false := by
  cases v with
  | vObj fs =>
    show (lookupA (fs.filter (fun kv => kv.1 ≠ key)) key).isSome = false
    rw [lookupA_filter_ne]
    rfl
  | vNull => rfl
  | vBool b => rfl
  | vNum n => rfl
  | vStr s => rfl
  | vArr es => rfl

/-- Every record of an id-stripped batch lacks the `id` property. -/
theorem stripped_ids (resolved : List Value) :
    ∀ r ∈ resolved.map (fun r => removeField r "id"), hasField r "id" = false := by
  intro r hr
  obtain ⟨r0, _, rfl⟩ := List.mem_map.mp hr
  exact hasField_removeField r0 "id"

/-- Appending a different event leaves a count unchanged. -/
theorem countE_append_ne (e : Event) (t : List Event) (ev : Event) (h : ev ≠ e) :
    countE e (t ++ [ev]) = countE e t := by
  rw [countE_append]
  show countE e t + ((if ev = e then 1 else 0) + 0) = countE e t
  rw [if_neg h]
  rfl

/-!
## The load-run invariant

`LoadInv` holds of the state at every suspension point of a `loadData` run:
completed collections have their merge event in the trace and their parents
completed; any field resolution observed in the trace was preceded by the
merge of every ancestor; a collection's `startedLoad` event appears exactly
once iff it is in the memoize cache; completed collections sit in the
cache; and completed collections' stored records have been stripped of
their `id` in place.
-/

structure LoadInv (env : Env) (st : LoadState) : Prop where
  mergedDone : ∀ m ∈ st.completed, Event.merged m ∈ st.trace
  parentsClosed : ∀ m ∈ st.completed, ∀ p ∈ child2parentSObjects env m, p ∈ st.completed
  traceOrder : ∀ c a, Ancestor env a c →
    PrecedesAll st.trace (Event.merged a) (Event.resolveStart c)
  countStarted : ∀ n, countE (Event.startedLoad n) st.trace =
    if n ∈ st.started then 1 else 0
  compSubStarted : ∀ m ∈ st.completed, m ∈ st.started
  storeStripped : ∀ m ∈ st.completed, ∀ r ∈ lookupD st.recordStore m [],
    hasField r "id" = false

/-- Under the invariant, every ancestor of a completed collection has been
merged. -/
theorem merged_of_ancestor {env : Env} {st : LoadState} (h : LoadInv env st)
    {a c : String} (han : Ancestor env a c) (hc : c ∈ st.completed) :
    Event.merged a ∈ st.trace := by
  induction han with
  | base hp => exact h.mergedDone _ (h.parentsClosed _ hc _ hp)
  | step ha hp ih => exact ih (h.parentsClosed _ hc _ hp)

/-- Entering a collection's body preserves the invariant. -/
theorem markStarted_inv {env : Env} {st : LoadState} (n : String) (h : LoadInv env st)
    (hns : n ∉ st.started) : LoadInv env (markStarted n st) := by
  refine ⟨?_, h.parentsClosed, ?_, ?_, ?_, h.storeStripped⟩
  · intro m hm
    exact List.mem_append_left _ (h.mergedDone m hm)
  · intro c a ha
    exact precedesAll_append_ne (h.traceOrder c a ha) (by intro hh; cases hh)
  · intro x
    show countE (Event.startedLoad x) (st.trace ++ [Event.startedLoad n]) =
      if x ∈ n :: st.started then 1 else 0
    rw [countE_append]
    by_cases hx : x = n
    · subst hx
      rw [h.countStarted x, if_neg hns, if_pos (List.mem_cons_self x st.started)]
      simp [countE]
    · have hz : countE (Event.startedLoad x) [Event.startedLoad n] = 0 := by
        show (if Event.startedLoad n = Event.startedLoad x then 1 else 0) + 0 = 0
        rw [if_neg (fun hh => hx (Event.startedLoad.inj hh).symm)]
      rw [hz, h.countStarted x, Nat.add_zero]
      congr 1
      simp [List.mem_cons, hx]
  · intro m hm
    exact List.mem_cons_of_mem _ (h.compSubStarted m hm)

/-- Beginning a collection's field resolution preserves the invariant,
provided all of its parents have completed. -/
theorem markResolve_inv {env : Env} {st : LoadState} (n : String) (h : LoadInv env st)
    (hpar : ∀ p ∈ child2parentSObjects env n, p ∈ st.completed) :
    LoadInv env (markResolve n st) := by
  refine ⟨?_, h.parentsClosed, ?_, ?_, h.compSubStarted, h.storeStripped⟩
  · intro m hm
    exact List.mem_append_left _ (h.mergedDone m hm)
  · intro c a ha
    by_cases hcn : c = n
    · subst hcn
      obtain ⟨p, hp, hap⟩ := ancestor_cases ha
      have hpc : p ∈ st.completed := hpar p hp
      have hma : Event.merged a ∈ st.trace := by
        rcases hap with rfl | hap2
        · exact h.mergedDone _ hpc
        · exact merged_of_ancestor h hap2 hpc
      exact precedesAll_append_mem (h.traceOrder c a ha) hma
    · exact precedesAll_append_ne (h.traceOrder c a ha)
        (fun hh => hcn (Event.resolveStart.inj hh).symm)
  · intro x
    show countE (Event.startedLoad x) (st.trace ++ [Event.resolveStart n]) =
      if x ∈ st.started then 1 else 0
    rw [countE_append_ne _ _ _ (by intro hh; cases hh)]
    exact h.countStarted x

/-- Completing a collection's body preserves the invariant. -/
theorem markDone_inv {env : Env} {st : LoadState} (n : String) (h : LoadInv env st)
    (hstart : n ∈ st.started)
    (hpar : ∀ p ∈ child2parentSObjects env n, p ∈ st.completed)
    (hstore : ∀ r ∈ lookupD st.recordStore n [], hasField r "id" = false) :
    LoadInv env (markDone n st) := by
  refine ⟨?_, ?_, ?_, ?_, ?_, ?_⟩
  · intro m hm
    rcases List.mem_cons.mp hm with rfl | hm2
    · exact List.mem_append_right _ (List.mem_singleton.mpr rfl)
    · exact List.mem_append_left _ (h.mergedDone m hm2)
  · intro m hm p hp
    rcases List.mem_cons.mp hm with rfl | hm2
    · exact List.mem_cons_of_mem _ (hpar p hp)
    · exact List.mem_cons_of_mem _ (h.parentsClosed m hm2 p hp)
  · intro c a ha
    exact precedesAll_append_ne (h.traceOrder c a ha) (by intro hh; cases hh)
  · intro x
    show countE (Event.startedLoad x) (st.trace ++ [Event.merged n]) =
      if x ∈ st.started then 1 else 0
    rw [countE_append_ne _ _ _ (by intro hh; cases hh)]
    exact h.countStarted x
  · intro m hm
    rcases List.mem_cons.mp hm with rfl | hm2
    · exact hstart
    · exact h.compSubStarted m hm2
  · intro m hm
    rcases List.mem_cons.mp hm with rfl | hm2
    · exact hstore
    · exact h.storeStripped m hm2

/-- Rebuilding a state with the same cache and trace but a re-stripped store
preserves the invariant. -/
theorem loadInv_replace {env : Env} {st : LoadState} (st2 : LoadState) (h : LoadInv env st)
    (hs : st2.started = st.started) (hc : st2.completed = st.completed)
    (ht : st2.trace = st.trace)
    (hst : ∀ m ∈ st2.completed, ∀ r ∈ lookupD st2.recordStore m [],
      hasField r "id" = false) :
    LoadInv env st2 := by
  refine ⟨?_, ?_, ?_, ?_, ?_, hst⟩
  · intro m hm
    rw [ht]
    exact h.mergedDone m (hc ▸ hm)
  · intro m hm p hp
    rw [hc]
    exact h.parentsClosed m (hc ▸ hm) p hp
  · intro c a ha
    rw [ht]
    exact h.traceOrder c a ha
  · intro x
    rw [ht, hs]
    exact h.countStarted x
  · intro m hm
    rw [hs]
    exact h.compSubStarted m (hc ▸ hm)

/-- Overwriting one collection's records with id-stripped ones keeps every
completed collection's records stripped. -/
theorem storeStripped_upsert {env : Env} {st : LoadState} (s : String)
    (stripped : List Value) (h : LoadInv env st)
    (hstr : ∀ r ∈ stripped, hasField r "id" = false) :
    ∀ m ∈ st.completed, ∀ r ∈ lookupD (upsertA st.recordStore s stripped) m [],
      hasField r "id" = false := by
  intro m hm r hr
  by_cases hms : m = s
  · subst hms
    rw [lookupD_upsertA_self] at hr
    exact hstr r hr
  · rw [lookupD_upsertA_ne _ _ _ _ _ hms] at hr
    exact h.storeStripped m hm r hr

/-- The create/persist/merge step preserves the invariant; it touches neither
the memoize cache nor the trace, and it installs the stripped records for
its own collection. -/
theorem createAndRecord_inv {env : Env} {st : LoadState} (s : String)
    (resolved : List Value) (h : LoadInv env st) :
    LoadInv env (stateOf (createAndRecord env s resolved st)) ∧
    (stateOf (createAndRecord env s resolved st)).started = st.started ∧
    (stateOf (createAndRecord env s resolved st)).completed = st.completed ∧
    (stateOf (createAndRecord env s resolved st)).trace = st.trace ∧
    lookupD (stateOf (createAndRecord env s resolved st)).recordStore s [] =
      resolved.map (fun r => removeField r "id") := by
  have hstr := stripped_ids resolved
  simp only [createAndRecord]
  by_cases hfail : (env.create s (resolved.map (fun r => removeField r "id"))).any
      (fun r => !r.success) = true
  · rw [if_pos hfail]
    refine ⟨?_, rfl, rfl, rfl, lookupD_upsertA_self _ _ _ _⟩
    exact loadInv_replace _ h rfl rfl rfl (storeStripped_upsert s _ h hstr)
  · rw [if_neg hfail]
    by_cases hw : env.writeOk s ((env.create s (resolved.map (fun r => removeField r "id"))).map
        (fun r => r.id)) = true
    · rw [if_pos hw]
      refine ⟨?_, rfl, rfl, rfl, lookupD_upsertA_self _ _ _ _⟩
      exact loadInv_replace _ h rfl rfl rfl (storeStripped_upsert s _ h hstr)
    · rw [if_neg hw]
      refine ⟨?_, rfl, rfl, rfl, lookupD_upsertA_self _ _ _ _⟩
      exact loadInv_replace _ h rfl rfl rfl (storeStripped_upsert s _ h hstr)

/-- `markResolve` only appends to the trace. -/
theorem markResolve_old2newId (n : String) (st : LoadState) :
    (markResolve n st).old2newId = st.old2newId := rfl

/-- `markResolve` leaves the record store alone. -/
theorem markResolve_recordStore (n : String) (st : LoadState) :
    (markResolve n st).recordStore = st.recordStore := rfl

/-!
## The master preservation lemma for the load path

One induction on fuel shows that every step of `loadSObjectData` (and of the
sequential loops over collection lists) preserves `LoadInv`, only grows the
memoize cache, and, on success, has completed its collection.
-/

theorem loadMaster (env : Env) : ∀ fuel : Nat,
    (∀ n st, LoadInv env st →
      LoadInv env (stateOf (loadSObjectData env fuel n st)) ∧
      (∀ x ∈ st.started, x ∈ (stateOf (loadSObjectData env fuel n st)).started) ∧
      (∀ x ∈ st.completed, x ∈ (stateOf (loadSObjectData env fuel n st)).completed) ∧
      (∀ st2, loadSObjectData env fuel n st = .ok st2 → n ∈ st2.completed)) ∧
    (∀ l st, LoadInv env st →
      LoadInv env (stateOf (runSeq (fun p stp => loadSObjectData env fuel p stp) l st)) ∧
      (∀ x ∈ st.started,
        x ∈ (stateOf (runSeq (fun p stp => loadSObjectData env fuel p stp) l st)).started) ∧
      (∀ x ∈ st.completed,
        x ∈ (stateOf (runSeq (fun p stp => loadSObjectData env fuel p stp) l st)).completed) ∧
      (∀ st2, runSeq (fun p stp => loadSObjectData env fuel p stp) l st = .ok st2 →
        ∀ p ∈ l, p ∈ st2.completed)) := by
  intro fuel
  induction fuel with
  | zero =>
    constructor
    · intro n st hinv
      have heq : loadSObjectData env 0 n st = .error (.fuelOut, st) := by
        simp [loadSObjectData]
      rw [heq]
      exact ⟨hinv, fun x hx => hx, fun x hx => hx,
        fun st2 hok => Except.noConfusion hok⟩
    · intro l st hinv
      cases l with
      | nil =>
        have heq : runSeq (fun p stp => loadSObjectData env 0 p stp) ([] : List String) st =
            .ok st := by
          simp [runSeq]
        rw [heq]
        exact ⟨hinv, fun x hx => hx, fun x hx => hx,
          fun st2 _ p hp => absurd hp (List.not_mem_nil p)⟩
      | cons p ps =>
        have heq : runSeq (fun p stp => loadSObjectData env 0 p stp) (p :: ps) st =
            .error (.fuelOut, st) := by
          simp [runSeq, loadSObjectData]
        rw [heq]
        exact ⟨hinv, fun x hx => hx, fun x hx => hx,
          fun st2 hok => Except.noConfusion hok⟩
  | succ f ih =>
    obtain ⟨ihS, ihP⟩ := ih
    have hS : ∀ n st, LoadInv env st →
        LoadInv env (stateOf (loadSObjectData env (f + 1) n st)) ∧
        (∀ x ∈ st.started, x ∈ (stateOf (loadSObjectData env (f + 1) n st)).started) ∧
        (∀ x ∈ st.completed, x ∈ (stateOf (loadSObjectData env (f + 1) n st)).completed) ∧
        (∀ st2, loadSObjectData env (f + 1) n st = .ok st2 → n ∈ st2.completed) := by
      intro n st hinv
      by_cases hc : n ∈ st.completed
      · have heq : loadSObjectData env (f + 1) n st = .ok st := by
          simp [loadSObjectData, hc]
        rw [heq]
        exact ⟨hinv, fun x hx => hx, fun x hx => hx,
          fun st2 hok => (Except.ok.inj hok) ▸ hc⟩
      · by_cases hs2 : n ∈ st.started
        · have heq : loadSObjectData env (f + 1) n st = .error (.reentered n, st) := by
            simp [loadSObjectData, hc, hs2]
          rw [heq]
          exact ⟨hinv, fun x hx => hx, fun x hx => hx,
            fun st2 hok => Except.noConfusion hok⟩
        · have hinv0 : LoadInv env (markStarted n st) := markStarted_inv n hinv hs2
          obtain ⟨hinvP, hmonoSP, hmonoCP, hokP⟩ :=
            ihP (child2parentSObjects env n) (markStarted n st) hinv0
          cases hp : runSeq (fun p stp => loadSObjectData env f p stp)
              (child2parentSObjects env n) (markStarted n st) with
          | error e =>
            obtain ⟨eE, eS⟩ := e
            have heq : loadSObjectData env (f + 1) n st = .error (eE, eS) := by
              simp [loadSObjectData, hc, hs2, hp]
            rw [heq]
            rw [hp] at hinvP hmonoSP hmonoCP
            have hinvP2 : LoadInv env eS := hinvP
            have hmonoSP2 : ∀ x ∈ n :: st.started, x ∈ eS.started := hmonoSP
            have hmonoCP2 : ∀ x ∈ st.completed, x ∈ eS.completed := hmonoCP
            refine ⟨hinvP2, ?_, hmonoCP2, fun st2 hok => Except.noConfusion hok⟩
            intro x hx
            exact hmonoSP2 x (List.mem_cons_of_mem _ hx)
          | ok st1 =>
            rw [hp] at hinvP hmonoSP hmonoCP hokP
            have hpar : ∀ p ∈ child2parentSObjects env n, p ∈ st1.completed :=
              hokP st1 rfl
            have hinv1 : LoadInv env st1 := hinvP
            have hmonoS1 : ∀ x ∈ n :: st.started, x ∈ st1.started := hmonoSP
            have hmonoC1 : ∀ x ∈ st.completed, x ∈ st1.completed := hmonoCP
            have hinv2 : LoadInv env (markResolve n st1) := markResolve_inv n hinv1 hpar
            cases hr : resolveRecords env st1.old2newId (lookupD st1.recordStore n []) with
            | error e =>
              have heq : loadSObjectData env (f + 1) n st = .error (e, markResolve n st1) := by
                simp [loadSObjectData, hc, hs2, hp, markResolve_old2newId,
                  markResolve_recordStore, hr]
              rw [heq]
              refine ⟨hinv2, ?_, ?_, fun st2 hok => Except.noConfusion hok⟩
              · intro x hx
                exact hmonoS1 x (List.mem_cons_of_mem _ hx)
              · intro x hx
                exact hmonoC1 x hx
            | ok resolved =>
              obtain ⟨hinvC, hsC, hcC, htC, hstoreC⟩ :=
                createAndRecord_inv n resolved hinv2
              cases hcr : createAndRecord env n resolved (markResolve n st1) with
              | error e =>
                obtain ⟨eE, eS⟩ := e
                have heq : loadSObjectData env (f + 1) n st = .error (eE, eS) := by
                  simp [loadSObjectData, hc, hs2, hp, markResolve_old2newId,
                    markResolve_recordStore, hr, hcr]
                rw [heq]
                rw [hcr] at hinvC hsC hcC
                have hinvC2 : LoadInv env eS := hinvC
                have hsC2 : eS.started = st1.started := hsC
                have hcC2 : eS.completed = st1.completed := hcC
                refine ⟨hinvC2, ?_, ?_, fun st2 hok => Except.noConfusion hok⟩
                · intro x hx
                  show x ∈ eS.started
                  rw [hsC2]
                  exact hmonoS1 x (List.mem_cons_of_mem _ hx)
                · intro x hx
                  show x ∈ eS.completed
                  rw [hcC2]
                  exact hmonoC1 x hx
              | ok st3 =>
                rw [hcr] at hinvC hsC hcC htC hstoreC
                have hinvC2 : LoadInv env st3 := hinvC
                have hsC2 : st3.started = st1.started := hsC
                have hcC2 : st3.completed = st1.completed := hcC
                have hstoreC2 : lookupD st3.recordStore n [] =
                    resolved.map (fun r => removeField r "id") := hstoreC
                have heq : loadSObjectData env (f + 1) n st = .ok (markDone n st3) := by
                  simp [loadSObjectData, hc, hs2, hp, markResolve_old2newId,
                    markResolve_recordStore, hr, hcr]
                rw [heq]
                have hstart3 : n ∈ st3.started := by
                  rw [hsC2]
                  exact hmonoS1 n (List.mem_cons_self n st.started)
                have hpar3 : ∀ p ∈ child2parentSObjects env n, p ∈ st3.completed := by
                  intro p hp2
                  rw [hcC2]
                  exact hpar p hp2
                have hstore3 : ∀ r ∈ lookupD st3.recordStore n [],
                    hasField r "id" = false := by
                  rw [hstoreC2]
                  exact stripped_ids resolved
                have hinv3 : LoadInv env (markDone n st3) :=
                  markDone_inv n hinvC2 hstart3 hpar3 hstore3
                refine ⟨hinv3, ?_, ?_, ?_⟩
                · intro x hx
                  show x ∈ st3.started
                  rw [hsC2]
                  exact hmonoS1 x (List.mem_cons_of_mem _ hx)
                · intro x hx
                  show x ∈ n :: st3.completed
                  apply List.mem_cons_of_mem
                  rw [hcC2]
                  exact hmonoC1 x hx
                · intro st2 hok
                  rw [← Except.ok.inj hok]
                  exact List.mem_cons_self n st3.completed
    have hP : ∀ l st, LoadInv env st →
        LoadInv env (stateOf (runSeq (fun p stp => loadSObjectData env (f + 1) p stp) l st)) ∧
        (∀ x ∈ st.started,
          x ∈ (stateOf (runSeq (fun p stp => loadSObjectData env (f + 1) p stp) l st)).started) ∧
        (∀ x ∈ st.completed,
          x ∈ (stateOf (runSeq (fun p stp => loadSObjectData env (f + 1) p stp) l st)).completed) ∧
        (∀ st2, runSeq (fun p stp => loadSObjectData env (f + 1) p stp) l st = .ok st2 →
          ∀ p ∈ l, p ∈ st2.completed) := by
      intro l
      induction l with
      | nil =>
        intro st hinv
        have heq : runSeq (fun p stp => loadSObjectData env (f + 1) p stp)
            ([] : List String) st = .ok st := by
          simp [runSeq]
        rw [heq]
        exact ⟨hinv, fun x hx => hx, fun x hx => hx,
          fun st2 hok p hp => absurd hp (List.not_mem_nil p)⟩
      | cons p ps ihl =>
        intro st hinv
        obtain ⟨hinv1, hmono1S, hmono1C, hok1⟩ := hS p st hinv
        cases hq : loadSObjectData env (f + 1) p st with
        | error e =>
          obtain ⟨eE, eS⟩ := e
          have heq : runSeq (fun p stp => loadSObjectData env (f + 1) p stp)
              (p :: ps) st = .error (eE, eS) := by
            simp [runSeq, hq]
          rw [heq]
          rw [hq] at hinv1 hmono1S hmono1C
          exact ⟨hinv1, hmono1S, hmono1C, fun st2 hok => Except.noConfusion hok⟩
        | ok st1 =>
          rw [hq] at hinv1 hmono1S hmono1C
          have hinv1b : LoadInv env st1 := hinv1
          have hmono1Sb : ∀ x ∈ st.started, x ∈ st1.started := hmono1S
          have hmono1Cb : ∀ x ∈ st.completed, x ∈ st1.completed := hmono1C
          have hpmem : p ∈ st1.completed := hok1 st1 hq
          obtain ⟨hinv2, hmono2S, hmono2C, hok2⟩ := ihl st1 hinv1b
          have heq : runSeq (fun p stp => loadSObjectData env (f + 1) p stp)
              (p :: ps) st =
              runSeq (fun p stp => loadSObjectData env (f + 1) p stp) ps st1 := by
            simp [runSeq, hq]
          rw [heq]
          refine ⟨hinv2, ?_, ?_, ?_⟩
          · intro x hx
            exact hmono2S x (hmono1Sb x hx)
          · intro x hx
            exact hmono2C x (hmono1Cb x hx)
          · intro st2 hok q hq2
            have hmC : ∀ x ∈ st1.completed, x ∈ st2.completed := by
              have hh := hmono2C
              rw [hok] at hh
              exact hh
            rcases List.mem_cons.mp hq2 with rfl | hq3
            · exact hmC q hpmem
            · exact hok2 st2 hok q hq3
    exact ⟨hS, hP⟩

/-!
## The delete-run invariant and its master lemma
-/

structure DelInv (env : Env) (st : DelState) : Prop where
  doneDone : ∀ m ∈ st.completed, Event.deleteDone m ∈ st.trace
  traceOrderD : ∀ c ch, ch ∈ parent2childObjects env c →
    PrecedesAll st.trace (Event.deleteDone ch) (Event.destroyed c)
  countStartedD : ∀ n, countE (Event.startedDelete n) st.trace =
    if n ∈ st.started then 1 else 0
  compSubStartedD : ∀ m ∈ st.completed, m ∈ st.started

/-- Entering a collection's delete body preserves the invariant. -/
theorem markStartedD_inv {env : Env} {st : DelState} (n : String) (h : DelInv env st)
    (hns : n ∉ st.started) : DelInv env (markStartedD n st) := by
  refine ⟨?_, ?_, ?_, ?_⟩
  · intro m hm
    exact List.mem_append_left _ (h.doneDone m hm)
  · intro c ch hch
    exact precedesAll_append_ne (h.traceOrderD c ch hch) (by intro hh; cases hh)
  · intro x
    show countE (Event.startedDelete x) (st.trace ++ [Event.startedDelete n]) =
      if x ∈ n :: st.started then 1 else 0
    rw [countE_append]
    by_cases hx : x = n
    · subst hx
      rw [h.countStartedD x, if_neg hns, if_pos (List.mem_cons_self x st.started)]
      simp [countE]
    · have hz : countE (Event.startedDelete x) [Event.startedDelete n] = 0 := by
        show (if Event.startedDelete n = Event.startedDelete x then 1 else 0) + 0 = 0
        rw [if_neg (fun hh => hx (Event.startedDelete.inj hh).symm)]
      rw [hz, h.countStartedD x, Nat.add_zero]
      congr 1
      simp [List.mem_cons, hx]
  · intro m hm
    exact List.mem_cons_of_mem _ (h.compSubStartedD m hm)

/-- Performing the batch destroy preserves the invariant, provided every
child has completed its `deleteOne`. -/
theorem destroyed_inv {env : Env} {st : DelState} (n : String) (h : DelInv env st)
    (hch : ∀ ch ∈ parent2childObjects env n, ch ∈ st.completed) :
    DelInv env { st with trace := st.trace ++ [Event.destroyed n] } := by
  refine ⟨?_, ?_, ?_, h.compSubStartedD⟩
  · intro m hm
    exact List.mem_append_left _ (h.doneDone m hm)
  · intro c ch hch2
    by_cases hcn : c = n
    · subst hcn
      exact precedesAll_append_mem (h.traceOrderD c ch hch2)
        (h.doneDone ch (hch ch hch2))
    · exact precedesAll_append_ne (h.traceOrderD c ch hch2)
        (fun hh => hcn (Event.destroyed.inj hh).symm)
  · intro x
    show countE (Event.startedDelete x) (st.trace ++ [Event.destroyed n]) =
      if x ∈ st.started then 1 else 0
    rw [countE_append_ne _ _ _ (by intro hh; cases hh)]
    exact h.countStartedD x

/-- Completing a collection's `deleteOne` preserves the invariant. -/
theorem markDoneD_inv {env : Env} {st : DelState} (n : String) (h : DelInv env st)
    (hstart : n ∈ st.started) : DelInv env (markDoneD n st) := by
  refine ⟨?_, ?_, ?_, ?_⟩
  · intro m hm
    rcases List.mem_cons.mp hm with rfl | hm2
    · exact List.mem_append_right _ (List.mem_singleton.mpr rfl)
    · exact List.mem_append_left _ (h.doneDone m hm2)
  · intro c ch hch
    exact precedesAll_append_ne (h.traceOrderD c ch hch) (by intro hh; cases hh)
  · intro x
    show countE (Event.startedDelete x) (st.trace ++ [Event.deleteDone n]) =
      if x ∈ st.started then 1 else 0
    rw [countE_append_ne _ _ _ (by intro hh; cases hh)]
    exact h.countStartedD x
  · intro m hm
    rcases List.mem_cons.mp hm with rfl | hm2
    · exact hstart
    · exact h.compSubStartedD m hm2

theorem deleteMaster (env : Env) : ∀ fuel : Nat,
    (∀ n st, DelInv env st →
      DelInv env (stateOfD (deleteLoadedSObjectData env fuel n st)) ∧
      (∀ x ∈ st.started, x ∈ (stateOfD (deleteLoadedSObjectData env fuel n st)).started) ∧
      (∀ x ∈ st.completed, x ∈ (stateOfD (deleteLoadedSObjectData env fuel n st)).completed) ∧
      (∀ st2, deleteLoadedSObjectData env fuel n st = .ok st2 → n ∈ st2.completed)) ∧
    (∀ l st, DelInv env st →
      DelInv env (stateOfD (runSeq (fun c stc => deleteLoadedSObjectData env fuel c stc) l st)) ∧
      (∀ x ∈ st.started,
        x ∈ (stateOfD (runSeq (fun c stc => deleteLoadedSObjectData env fuel c stc) l st)).started) ∧
      (∀ x ∈ st.completed,
        x ∈ (stateOfD (runSeq (fun c stc => deleteLoadedSObjectData env fuel c stc) l st)).completed) ∧
      (∀ st2, runSeq (fun c stc => deleteLoadedSObjectData env fuel c stc) l st = .ok st2 →
        ∀ p ∈ l, p ∈ st2.completed)) := by
  intro fuel
  induction fuel with
  | zero =>
    constructor
    · intro n st hinv
      have heq : deleteLoadedSObjectData env 0 n st = .error (.fuelOut, st) := by
        simp [deleteLoadedSObjectData]
      rw [heq]
      exact ⟨hinv, fun x hx => hx, fun x hx => hx,
        fun st2 hok => Except.noConfusion hok⟩
    · intro l st hinv
      cases l with
      | nil =>
        have heq : runSeq (fun c stc => deleteLoadedSObjectData env 0 c stc)
            ([] : List String) st = .ok st := by
          simp [runSeq]
        rw [heq]
        exact ⟨hinv, fun x hx => hx, fun x hx => hx,
          fun st2 _ p hp => absurd hp (List.not_mem_nil p)⟩
      | cons p ps =>
        have heq : runSeq (fun c stc => deleteLoadedSObjectData env 0 c stc)
            (p :: ps) st = .error (.fuelOut, st) := by
          simp [runSeq, deleteLoadedSObjectData]
        rw [heq]
        exact ⟨hinv, fun x hx => hx, fun x hx => hx,
          fun st2 hok => Except.noConfusion hok⟩
  | succ f ih =>
    obtain ⟨ihS, ihP⟩ := ih
    have hS : ∀ n st, DelInv env st →
        DelInv env (stateOfD (deleteLoadedSObjectData env (f + 1) n st)) ∧
        (∀ x ∈ st.started, x ∈ (stateOfD (deleteLoadedSObjectData env (f + 1) n st)).started) ∧
        (∀ x ∈ st.completed, x ∈ (stateOfD (deleteLoadedSObjectData env (f + 1) n st)).completed) ∧
        (∀ st2, deleteLoadedSObjectData env (f + 1) n st = .ok st2 → n ∈ st2.completed) := by
      intro n st hinv
      by_cases hc : n ∈ st.completed
      · have heq : deleteLoadedSObjectData env (f + 1) n st = .ok st := by
          simp [deleteLoadedSObjectData, hc]
        rw [heq]
        exact ⟨hinv, fun x hx => hx, fun x hx => hx,
          fun st2 hok => (Except.ok.inj hok) ▸ hc⟩
      · by_cases hs2 : n ∈ st.started
        · have heq : deleteLoadedSObjectData env (f + 1) n st = .error (.reentered n, st) := by
            simp [deleteLoadedSObjectData, hc, hs2]
          rw [heq]
          exact ⟨hinv, fun x hx => hx, fun x hx => hx,
            fun st2 hok => Except.noConfusion hok⟩
        · have hinv0 : DelInv env (markStartedD n st) := markStartedD_inv n hinv hs2
          obtain ⟨hinvP, hmonoSP, hmonoCP, hokP⟩ :=
            ihP (parent2childObjects env n) (markStartedD n st) hinv0
          cases hp : runSeq (fun c stc => deleteLoadedSObjectData env f c stc)
              (parent2childObjects env n) (markStartedD n st) with
          | error e =>
            obtain ⟨eE, eS⟩ := e
            have heq : deleteLoadedSObjectData env (f + 1) n st = .error (eE, eS) := by
              simp [deleteLoadedSObjectData, hc, hs2, hp]
            rw [heq]
            rw [hp] at hinvP hmonoSP hmonoCP
            have hinvP2 : DelInv env eS := hinvP
            have hmonoSP2 : ∀ x ∈ n :: st.started, x ∈ eS.started := hmonoSP
            have hmonoCP2 : ∀ x ∈ st.completed, x ∈ eS.completed := hmonoCP
            refine ⟨hinvP2, ?_, hmonoCP2, fun st2 hok => Except.noConfusion hok⟩
            intro x hx
            exact hmonoSP2 x (List.mem_cons_of_mem _ hx)
          | ok st1 =>
            rw [hp] at hinvP hmonoSP hmonoCP hokP
            have hch : ∀ ch ∈ parent2childObjects env n, ch ∈ st1.completed :=
              hokP st1 rfl
            have hinv1 : DelInv env st1 := hinvP
            have hmonoS1 : ∀ x ∈ n :: st.started, x ∈ st1.started := hmonoSP
            have hmonoC1 : ∀ x ∈ st.completed, x ∈ st1.completed := hmonoCP
            have hstart1 : n ∈ st1.started := hmonoS1 n (List.mem_cons_self n st.started)
            cases hread : readIdsFile env st1 n with
            | error fe =>
              have heq : deleteLoadedSObjectData env (f + 1) n st = .ok (markDoneD n st1) := by
                simp [deleteLoadedSObjectData, hc, hs2, hp, hread]
              rw [heq]
              refine ⟨markDoneD_inv n hinv1 hstart1, ?_, ?_, ?_⟩
              · intro x hx
                show x ∈ st1.started
                exact hmonoS1 x (List.mem_cons_of_mem _ hx)
              · intro x hx
                show x ∈ n :: st1.completed
                exact List.mem_cons_of_mem _ (hmonoC1 x hx)
              · intro st2 hok
                rw [← Except.ok.inj hok]
                exact List.mem_cons_self n st1.completed
            | ok ids =>
              have hinv2 : DelInv env { st1 with trace := st1.trace ++ [Event.destroyed n] } :=
                destroyed_inv n hinv1 hch
              by_cases hfail : (env.destroy n (env.findByIds n ids)).any (fun r => !r.success) = true
              · have heq : deleteLoadedSObjectData env (f + 1) n st =
                    .error (.deleteFailed n,
                      { st1 with trace := st1.trace ++ [Event.destroyed n] }) := by
                  simp [deleteLoadedSObjectData, hc, hs2, hp, hread, hfail]
                rw [heq]
                refine ⟨hinv2, ?_, ?_, fun st2 hok => Except.noConfusion hok⟩
                · intro x hx
                  show x ∈ st1.started
                  exact hmonoS1 x (List.mem_cons_of_mem _ hx)
                · intro x hx
                  show x ∈ st1.completed
                  exact hmonoC1 x hx
              · have heq : deleteLoadedSObjectData env (f + 1) n st =
                    .ok (markDoneD n { st1 with trace := st1.trace ++ [Event.destroyed n] }) := by
                  simp [deleteLoadedSObjectData, hc, hs2, hp, hread, hfail]
                rw [heq]
                refine ⟨markDoneD_inv n hinv2 hstart1, ?_, ?_, ?_⟩
                · intro x hx
                  show x ∈ st1.started
                  exact hmonoS1 x (List.mem_cons_of_mem _ hx)
                · intro x hx
                  show x ∈ n :: st1.completed
                  exact List.mem_cons_of_mem _ (hmonoC1 x hx)
                · intro st2 hok
                  rw [← Except.ok.inj hok]
                  exact List.mem_cons_self n st1.completed
    have hP : ∀ l st, DelInv env st →
        DelInv env (stateOfD (runSeq (fun c stc => deleteLoadedSObjectData env (f + 1) c stc) l st)) ∧
        (∀ x ∈ st.started,
          x ∈ (stateOfD (runSeq (fun c stc => deleteLoadedSObjectData env (f + 1) c stc) l st)).started) ∧
        (∀ x ∈ st.completed,
          x ∈ (stateOfD (runSeq (fun c stc => deleteLoadedSObjectData env (f + 1) c stc) l st)).completed) ∧
        (∀ st2, runSeq (fun c stc => deleteLoadedSObjectData env (f + 1) c stc) l st = .ok st2 →
          ∀ p ∈ l, p ∈ st2.completed) := by
      intro l
      induction l with
      | nil =>
        intro st hinv
        have heq : runSeq (fun c stc => deleteLoadedSObjectData env (f + 1) c stc)
            ([] : List String) st = .ok st := by
          simp [runSeq]
        rw [heq]
        exact ⟨hinv, fun x hx => hx, fun x hx => hx,
          fun st2 hok p hp => absurd hp (List.not_mem_nil p)⟩
      | cons p ps ihl =>
        intro st hinv
        obtain ⟨hinv1, hmono1S, hmono1C, hok1⟩ := hS p st hinv
        cases hq : deleteLoadedSObjectData env (f + 1) p st with
        | error e =>
          obtain ⟨eE, eS⟩ := e
          have heq : runSeq (fun c stc => deleteLoadedSObjectData env (f + 1) c stc)
              (p :: ps) st = .error (eE, eS) := by
            simp [runSeq, hq]
          rw [heq]
          rw [hq] at hinv1 hmono1S hmono1C
          exact ⟨hinv1, hmono1S, hmono1C, fun st2 hok => Except.noConfusion hok⟩
        | ok st1 =>
          rw [hq] at hinv1 hmono1S hmono1C
          have hinv1b : DelInv env st1 := hinv1
          have hmono1Sb : ∀ x ∈ st.started, x ∈ st1.started := hmono1S
          have hmono1Cb : ∀ x ∈ st.completed, x ∈ st1.completed := hmono1C
          have hpmem : p ∈ st1.completed := hok1 st1 hq
          obtain ⟨hinv2, hmono2S, hmono2C, hok2⟩ := ihl st1 hinv1b
          have heq : runSeq (fun c stc => deleteLoadedSObjectData env (f + 1) c stc)
              (p :: ps) st =
              runSeq (fun c stc => deleteLoadedSObjectData env (f + 1) c stc) ps st1 := by
            simp [runSeq, hq]
          rw [heq]
          refine ⟨hinv2, ?_, ?_, ?_⟩
          · intro x hx
            exact hmono2S x (hmono1Sb x hx)
          · intro x hx
            exact hmono2C x (hmono1Cb x hx)
          · intro st2 hok q hq2
            have hmC : ∀ x ∈ st1.completed, x ∈ st2.completed := by
              have hh := hmono2C
              rw [hok] at hh
              exact hh
            rcases List.mem_cons.mp hq2 with rfl | hq3
            · exact hmC q hpmem
            · exact hok2 st2 hok q hq3
    exact ⟨hS, hP⟩

/-- A fresh load state satisfies the invariant. -/
theorem loadInv_init (env : Env) : LoadInv env (initLoadState env) := by
  refine ⟨?_, ?_, ?_, ?_, ?_, ?_⟩
  · intro m hm
    exact absurd hm (List.not_mem_nil m)
  · intro m hm p hp
    exact absurd hm (List.not_mem_nil m)
  · intro c a ha
    exact precedesAll_nil _ _
  · intro x
    show countE (Event.startedLoad x) [] = if x ∈ ([] : List String) then 1 else 0
    rw [if_neg (List.not_mem_nil x)]
    rfl
  · intro m hm
    exact absurd hm (List.not_mem_nil m)
  · intro m hm r hr
    exact absurd hm (List.not_mem_nil m)

/-- A fresh delete state satisfies the invariant. -/
theorem delInv_init (env : Env) (files0 : List (String × List String)) :
    DelInv env { started := [], completed := [], files := files0, trace := [] } := by
  refine ⟨?_, ?_, ?_, ?_⟩
  · intro m hm
    exact absurd hm (List.not_mem_nil m)
  · intro c ch hch
    exact precedesAll_nil _ _
  · intro x
    show countE (Event.startedDelete x) [] = if x ∈ ([] : List String) then 1 else 0
    rw [if_neg (List.not_mem_nil x)]
    rfl
  · intro m hm
    exact absurd hm (List.not_mem_nil m)

/-- C1: for every input and every collection C, any occurrence of C's field
resolution in a `loadData` trace is strictly preceded by the merge (create
step completed and id pairs merged into the identity map) of every ancestor
A of C in the relation graph; symmetrically, in a `deleteLoadedData` trace,
C's batch destroy is never observed before every child of C has completed
its `deleteOne`.  (For acyclic inputs this is the claimed ordering; cyclic
inputs abort before any violating event is emitted.) -/
theorem c1_dependency_order (env : Env) (fuel fuelD : Nat)
    (files0 : List (String × List String)) :
    (∀ C A, Ancestor env A C →
      PrecedesAll (stateOf (loadData env fuel)).trace
        (Event.merged A) (Event.resolveStart C)) ∧
    (∀ C ch, ch ∈ parent2childObjects env C →
      PrecedesAll (stateOfD (deleteLoadedData env fuelD files0)).trace
        (Event.deleteDone ch) (Event.destroyed C)) := by
  constructor
  · intro C A ha
    have h := ((loadMaster env fuel).2 env.sobjects (initLoadState env)
      (loadInv_init env)).1
    exact h.traceOrder C A ha
  · intro C ch hch
    have h := ((deleteMaster env fuelD).2 env.sobjects
      { started := [], completed := [], files := files0, trace := [] }
      (delInv_init env files0)).1
    exact h.traceOrderD C ch hch

/-- Witness for C1 at the `Parent`/`Child` fixture: `Parent` is an ancestor
of `Child`, so `Parent`'s merge precedes `Child`'s field resolution. -/
theorem c1_dependency_order_witness :
    Ancestor envPair "Parent" "Child" ∧
    PrecedesAll (stateOf (loadData envPair 3)).trace
      (Event.merged "Parent") (Event.resolveStart "Child") :=
  have hanc : Ancestor envPair "Parent" "Child" := Ancestor.base (by decide)
  ⟨hanc, (c1_dependency_order envPair 3 3 []).1 "Child" "Parent" hanc⟩

/-- C2: in one `loadData` run the underlying body of `loadSObjectData`
executes at most once per collection name — and, when the run resolves,
exactly once for every collection of the input — however many recursion
paths request it; a `deleteLoadedData` run obeys the same per-run
at-most-once discipline. -/
theorem c2_memoized_once (env : Env) (fuel fuelD : Nat)
    (files0 : List (String × List String)) :
    (∀ n, countE (Event.startedLoad n) (stateOf (loadData env fuel)).trace ≤ 1) ∧
    (∀ st2, loadData env fuel = .ok st2 → ∀ n ∈ env.sobjects,
      countE (Event.startedLoad n) st2.trace = 1) ∧
    (∀ n, countE (Event.startedDelete n)
      (stateOfD (deleteLoadedData env fuelD files0)).trace ≤ 1) := by
  refine ⟨?_, ?_, ?_⟩
  · intro n
    show countE (Event.startedLoad n)
      (stateOf (runSeq (fun p stp => loadSObjectData env fuel p stp)
        env.sobjects (initLoadState env))).trace ≤ 1
    have h := ((loadMaster env fuel).2 env.sobjects (initLoadState env)
      (loadInv_init env)).1
    rw [h.countStarted n]
    split
    · exact Nat.le_refl 1
    · exact Nat.zero_le 1
  · intro st2 hok n hn
    obtain ⟨hinvF, _, _, hokF⟩ := (loadMaster env fuel).2 env.sobjects
      (initLoadState env) (loadInv_init env)
    have hok2 : runSeq (fun p stp => loadSObjectData env fuel p stp)
        env.sobjects (initLoadState env) = .ok st2 := hok
    have hcomp : n ∈ st2.completed := hokF st2 hok2 n hn
    rw [hok2] at hinvF
    have hinv2 : LoadInv env st2 := hinvF
    rw [hinv2.countStarted n, if_pos (hinv2.compSubStarted n hcomp)]
  · intro n
    show countE (Event.startedDelete n)
      (stateOfD (runSeq (fun c stc => deleteLoadedSObjectData env fuelD c stc)
        env.sobjects
        { started := [], completed := [], files := files0, trace := [] })).trace ≤ 1
    have h := ((deleteMaster env fuelD).2 env.sobjects
      { started := [], completed := [], files := files0, trace := [] }
      (delInv_init env files0)).1
    rw [h.countStartedD n]
    split
    · exact Nat.le_refl 1
    · exact Nat.zero_le 1

/-- Witness for C2: the `Parent`/`Child` run resolves and `Parent`'s body ran
exactly once even though it is requested both as `Child`'s parent and by
the top-level loop. -/
theorem c2_memoized_once_witness :
    loadData envPair 3 = .ok (stateOf (loadData envPair 3)) ∧
    "Parent" ∈ envPair.sobjects ∧
    countE (Event.startedLoad "Parent") (stateOf (loadData envPair 3)).trace = 1 :=
  have hok : loadData envPair 3 = .ok (stateOf (loadData envPair 3)) := rfl
  ⟨hok, by decide,
    (c2_memoized_once envPair 3 3 []).2.1 (stateOf (loadData envPair 3)) hok
      "Parent" (by decide)⟩

/-- `createAndRecord` never changes the memoize cache. -/
theorem createAndRecord_completed (env : Env) (s : String) (resolved : List Value)
    (st : LoadState) :
    (stateOf (createAndRecord env s resolved st)).completed = st.completed := by
  simp only [createAndRecord]
  by_cases hfail : (env.create s (resolved.map (fun r => removeField r "id"))).any
      (fun r => !r.success) = true
  · rw [if_pos hfail]
    rfl
  · rw [if_neg hfail]
    by_cases hw : env.writeOk s ((env.create s (resolved.map (fun r => removeField r "id"))).map
        (fun r => r.id)) = true
    · rw [if_pos hw]
      rfl
    · rw [if_neg hw]
      rfl

/-- A collection whose every batch create fails can never enter the
completed set. -/
theorem createFail_never_completes (env : Env) (C : String)
    (hfail : ∀ recs, (env.create C recs).any (fun r => !r.success) = true) :
    ∀ fuel : Nat,
      (∀ n st, C ∉ st.completed →
        C ∉ (stateOf (loadSObjectData env fuel n st)).completed) ∧
      (∀ l st, C ∉ st.completed →
        C ∉ (stateOf (runSeq (fun p stp => loadSObjectData env fuel p stp) l st)).completed) := by
  intro fuel
  induction fuel with
  | zero =>
    constructor
    · intro n st hnc
      have heq : loadSObjectData env 0 n st = .error (.fuelOut, st) := by
        simp [loadSObjectData]
      rw [heq]
      exact hnc
    · intro l st hnc
      cases l with
      | nil =>
        have heq : runSeq (fun p stp => loadSObjectData env 0 p stp) ([] : List String) st =
            .ok st := by
          simp [runSeq]
        rw [heq]
        exact hnc
      | cons p ps =>
        have heq : runSeq (fun p stp => loadSObjectData env 0 p stp) (p :: ps) st =
            .error (.fuelOut, st) := by
          simp [runSeq, loadSObjectData]
        rw [heq]
        exact hnc
  | succ f ih =>
    obtain ⟨ihS, ihP⟩ := ih
    have hS : ∀ n st, C ∉ st.completed →
        C ∉ (stateOf (loadSObjectData env (f + 1) n st)).completed := by
      intro n st hnc
      by_cases hc : n ∈ st.completed
      · have heq : loadSObjectData env (f + 1) n st = .ok st := by
          simp [loadSObjectData, hc]
        rw [heq]
        exact hnc
      · by_cases hs2 : n ∈ st.started
        · have heq : loadSObjectData env (f + 1) n st = .error (.reentered n, st) := by
            simp [loadSObjectData, hc, hs2]
          rw [heq]
          exact hnc
        · have hnc0 : C ∉ (markStarted n st).completed := hnc
          have hnc1 := ihP (child2parentSObjects env n) (markStarted n st) hnc0
          cases hp : runSeq (fun p stp => loadSObjectData env f p stp)
              (child2parentSObjects env n) (markStarted n st) with
          | error e =>
            obtain ⟨eE, eS⟩ := e
            have heq : loadSObjectData env (f + 1) n st = .error (eE, eS) := by
              simp [loadSObjectData, hc, hs2, hp]
            rw [heq]
            rw [hp] at hnc1
            exact hnc1
          | ok st1 =>
            rw [hp] at hnc1
            have hnc1b : C ∉ st1.completed := hnc1
            cases hr : resolveRecords env st1.old2newId (lookupD st1.recordStore n []) with
            | error e =>
              have heq : loadSObjectData env (f + 1) n st = .error (e, markResolve n st1) := by
                simp [loadSObjectData, hc, hs2, hp, markResolve_old2newId,
                  markResolve_recordStore, hr]
              rw [heq]
              exact hnc1b
            | ok resolved =>
              have hcomp := createAndRecord_completed env n resolved (markResolve n st1)
              cases hcr : createAndRecord env n resolved (markResolve n st1) with
              | error e =>
                obtain ⟨eE, eS⟩ := e
                have heq : loadSObjectData env (f + 1) n st = .error (eE, eS) := by
                  simp [loadSObjectData, hc, hs2, hp, markResolve_old2newId,
                    markResolve_recordStore, hr, hcr]
                rw [heq]
                rw [hcr] at hcomp
                have hcomp2 : eS.completed = st1.completed := hcomp
                show C ∉ eS.completed
                rw [hcomp2]
                exact hnc1b
              | ok st3 =>
                have hnC : n ≠ C := by
                  intro hEq
                  subst hEq
                  have hx := hfail (resolved.map (fun r => removeField r "id"))
                  simp [createAndRecord, hx] at hcr
                have heq : loadSObjectData env (f + 1) n st = .ok (markDone n st3) := by
                  simp [loadSObjectData, hc, hs2, hp, markResolve_old2newId,
                    markResolve_recordStore, hr, hcr]
                rw [heq]
                rw [hcr] at hcomp
                have hcomp2 : st3.completed = st1.completed := hcomp
                show C ∉ n :: st3.completed
                intro hmem
                rcases List.mem_cons.mp hmem with hCn | hmem2
                · exact hnC hCn.symm
                · rw [hcomp2] at hmem2
                  exact hnc1b hmem2
    have hP : ∀ l st, C ∉ st.completed →
        C ∉ (stateOf (runSeq (fun p stp => loadSObjectData env (f + 1) p stp) l st)).completed := by
      intro l
      induction l with
      | nil =>
        intro st hnc
        have heq : runSeq (fun p stp => loadSObjectData env (f + 1) p stp)
            ([] : List String) st = .ok st := by
          simp [runSeq]
        rw [heq]
        exact hnc
      | cons p ps ihl =>
        intro st hnc
        have h1 := hS p st hnc
        cases hq : loadSObjectData env (f + 1) p st with
        | error e =>
          obtain ⟨eE, eS⟩ := e
          have heq : runSeq (fun p stp => loadSObjectData env (f + 1) p stp)
              (p :: ps) st = .error (eE, eS) := by
            simp [runSeq, hq]
          rw [heq]
          rw [hq] at h1
          exact h1
        | ok st1 =>
          rw [hq] at h1
          have heq : runSeq (fun p stp => loadSObjectData env (f + 1) p stp)
              (p :: ps) st =
              runSeq (fun p stp => loadSObjectData env (f + 1) p stp) ps st1 := by
            simp [runSeq, hq]
          rw [heq]
          exact ihl st1 h1
    exact ⟨hS, hP⟩

/-- C3: when the batch create for a collection C reports `success:false` for
at least one record, the run throws `CreateFailed` naming C at that point,
with no `(oldId, newId)` pairs merged into the identity map and no
identifier list persisted (the error state differs from the pre-create one
only in the in-place stripped record store); consequently, when every
create for C fails, `loadData` can never resolve successfully while C is
among the collections. -/
theorem c3_create_failed (env : Env) (C : String) :
    (∀ resolved st,
      (env.create C (resolved.map (fun r => removeField r "id"))).any
        (fun r => !r.success) = true →
      createAndRecord env C resolved st =
        .error (.createFailed C, { st with recordStore := upsertA st.recordStore C (resolved.map (fun r => removeField r "id")) })) ∧
    ((∀ recs, (env.create C recs).any (fun r => !r.success) = true) →
      C ∈ env.sobjects → ∀ fuel st2, loadData env fuel ≠ .ok st2) := by
  constructor
  · intro resolved st h
    simp only [createAndRecord]
    rw [if_pos h]
  · intro hfail hmem fuel st2 hok
    have hok2 : runSeq (fun p stp => loadSObjectData env fuel p stp)
        env.sobjects (initLoadState env) = .ok st2 := hok
    obtain ⟨_, _, _, hokF⟩ := (loadMaster env fuel).2 env.sobjects
      (initLoadState env) (loadInv_init env)
    have hin : C ∈ st2.completed := hokF st2 hok2 C hmem
    have hnot := (createFail_never_completes env C hfail fuel).2
      env.sobjects (initLoadState env) (List.not_mem_nil C)
    rw [hok2] at hnot
    exact hnot hin

/-- Witness for C3 at a store whose every create fails: the create step
throws `CreateFailed` naming `A` leaving map and files untouched, and the
whole `loadData` run cannot resolve. -/
theorem c3_create_failed_witness :
    (envCreateFail.create "A" ([Value.vObj [("id", Value.vStr "a1"), ("name", Value.vStr "x")]].map
      (fun r => removeField r "id"))).any (fun r => !r.success) = true ∧
    createAndRecord envCreateFail "A"
        [Value.vObj [("id", Value.vStr "a1"), ("name", Value.vStr "x")]]
        (initLoadState envCreateFail) =
      .error (.createFailed "A", { initLoadState envCreateFail with recordStore := upsertA (initLoadState envCreateFail).recordStore "A" ([Value.vObj [("id", Value.vStr "a1"), ("name", Value.vStr "x")]].map (fun r => removeField r "id")) }) ∧
    loadData envCreateFail 2 ≠ .ok (stateOf (loadData envCreateFail 2)) :=
  ⟨rfl,
    (c3_create_failed envCreateFail "A").1
      [Value.vObj [("id", Value.vStr "a1"), ("name", Value.vStr "x")]]
      (initLoadState envCreateFail) rfl,
    (c3_create_failed envCreateFail "A").2 (fun recs => rfl) (by decide) 2
      (stateOf (loadData envCreateFail 2))⟩

/-- C6 counterexample: with `A`'s identifier file present but its read
failing with a permission-style error, `deleteLoadedData` still resolves
successfully (the `catch` only logs and returns) and never issues a destroy
for `A` — the claim that non-missing read failures propagate and fail the
run is false on the code. -/
theorem c6_read_error_counterexample :
    envFault.readFault "A" = true ∧
    lookupA [("A", ["x1"])] "A" = some ["x1"] ∧
    readIdsFile envFault { started := ["A"], completed := [], files := [("A", ["x1"])], trace := [Event.startedDelete "A"] } "A" = .error FsErr.eacces ∧
    deleteLoadedData envFault 2 [("A", ["x1"])] =
      .ok (stateOfD (deleteLoadedData envFault 2 [("A", ["x1"])])) ∧
    countE (Event.destroyed "A")
      (stateOfD (deleteLoadedData envFault 2 [("A", ["x1"])])).trace = 0 :=
  ⟨rfl, rfl, rfl, rfl, rfl⟩

/-- C6 (amended): `deleteOne(C)` completes as a no-op without error whenever
reading C's persisted identifier file fails for any reason — a missing file
or any other I/O failure (e.g. a permission error) alike — because the
source catches every error from `readJSONFile`; no read failure propagates
to the enclosing `deleteLoadedData`. -/
theorem c6_read_error_skips (env : Env) (fuel : Nat) (sobject : String)
    (st st1 : DelState) (fe : FsErr)
    (hc : sobject ∉ st.completed) (hs : sobject ∉ st.started)
    (hch : runSeq (fun c stc => deleteLoadedSObjectData env fuel c stc)
      (parent2childObjects env sobject) (markStartedD sobject st) = .ok st1)
    (hread : readIdsFile env st1 sobject = .error fe) :
    deleteLoadedSObjectData env (fuel + 1) sobject st = .ok (markDoneD sobject st1) ∧
    (markDoneD sobject st1).files = st1.files ∧
    countE (Event.destroyed sobject) (markDoneD sobject st1).trace =
      countE (Event.destroyed sobject) st1.trace := by
  refine ⟨?_, rfl, ?_⟩
  · simp [deleteLoadedSObjectData, hc, hs, hch, hread]
  · show countE (Event.destroyed sobject) (st1.trace ++ [Event.deleteDone sobject]) =
      countE (Event.destroyed sobject) st1.trace
    rw [countE_append_ne _ _ _ (by intro hh; cases hh)]

/-- Witness for C6 (amended): a permission-style failure on `A`'s present
identifier file makes its `deleteOne` a successful no-op. -/
theorem c6_read_error_skips_witness :
    ("A" ∉ (({ started := [], completed := [], files := [("A", ["x1"])], trace := [] } : DelState)).completed) ∧
    readIdsFile envFault (markStartedD "A"
      { started := [], completed := [], files := [("A", ["x1"])], trace := [] }) "A" =
      .error FsErr.eacces ∧
    deleteLoadedSObjectData envFault 2 "A"
        { started := [], completed := [], files := [("A", ["x1"])], trace := [] } =
      .ok (markDoneD "A" (markStartedD "A"
        { started := [], completed := [], files := [("A", ["x1"])], trace := [] })) :=
  have hc : "A" ∉ (({ started := [], completed := [], files := [("A", ["x1"])], trace := [] } : DelState)).completed :=
    List.not_mem_nil "A"
  have hs : "A" ∉ (({ started := [], completed := [], files := [("A", ["x1"])], trace := [] } : DelState)).started :=
    List.not_mem_nil "A"
  ⟨hc, rfl,
    (c6_read_error_skips envFault 1 "A"
      { started := [], completed := [], files := [("A", ["x1"])], trace := [] }
      (markStartedD "A" { started := [], completed := [], files := [("A", ["x1"])], trace := [] })
      FsErr.eacces hc hs rfl rfl).1⟩

/-- C7: the code contradicts the claim's cleanup contract — a successful
delete run leaves the persisted identifier file in place (`deleteJSONFile`
exists but is never called; the "delete the file" step is only a debug
log), so a second `deleteLoadedData` re-reads the same identifiers and
issues another batch destroy instead of short-circuiting on a missing
file. -/
theorem c7_identifier_file_survives_delete :
    deleteLoadedData envSolo 2 [("A", ["x1"])] =
      .ok (stateOfD (deleteLoadedData envSolo 2 [("A", ["x1"])])) ∧
    lookupA (stateOfD (deleteLoadedData envSolo 2 [("A", ["x1"])])).files "A" =
      some ["x1"] ∧
    countE (Event.destroyed "A")
      (stateOfD (deleteLoadedData envSolo 2
        (stateOfD (deleteLoadedData envSolo 2 [("A", ["x1"])])).files)).trace = 1 :=
  ⟨rfl, rfl, rfl⟩

/-- C8: the code contradicts the claim's propagation policy for the persist
step — `fs.writeJSONFile` neither awaits nor returns its `writeFile`
promise, so when persisting `A`'s new identifier list fails, `loadData`
still resolves successfully (with the identifiers merged but nothing
persisted) instead of rejecting. -/
theorem c8_persist_failure_not_propagated :
    envWriteFail.writeOk "A" ["n1"] = false ∧
    loadData envWriteFail 2 = .ok (stateOf (loadData envWriteFail 2)) ∧
    lookupA (stateOf (loadData envWriteFail 2)).files "A" = none ∧
    (stateOf (loadData envWriteFail 2)).old2newId = [("a1", "n1")] :=
  ⟨rfl, rfl, rfl, rfl⟩

/-- C9 counterexample: `loadData` mutates the record store in place — after a
successful run, `A`'s stored record has lost its reserved `id` field, so
the stored record set is not the same as before the call. -/
theorem c9_store_mutated_counterexample :
    loadData envSolo 2 = .ok (stateOf (loadData envSolo 2)) ∧
    (lookupD (initLoadState envSolo).recordStore "A" []).map
      (fun r => hasField r "id") = [true] ∧
    (lookupD (stateOf (loadData envSolo 2)).recordStore "A" []).map
      (fun r => hasField r "id") = [false] :=
  ⟨rfl, rfl, rfl⟩

/-- C9 (amended): the relation graph is computed once from the initial
records and never modified, but `loadData` mutates the shared record store
in place: on a successful run every loaded collection's stored records have
had their fields resolved and their reserved `id` field deleted. -/
theorem c9_store_stripped_after_load (env : Env) (fuel : Nat) (st2 : LoadState)
    (hok : loadData env fuel = .ok st2) :
    ∀ C ∈ env.sobjects, ∀ r ∈ lookupD st2.recordStore C [],
      hasField r "id" = false := by
  intro C hC r hr
  have hok2 : runSeq (fun p stp => loadSObjectData env fuel p stp)
      env.sobjects (initLoadState env) = .ok st2 := hok
  obtain ⟨hinvF, _, _, hokF⟩ := (loadMaster env fuel).2 env.sobjects
    (initLoadState env) (loadInv_init env)
  have hcomp : C ∈ st2.completed := hokF st2 hok2 C hC
  rw [hok2] at hinvF
  have hinv2 : LoadInv env st2 := hinvF
  exact hinv2.storeStripped C hcomp r hr

/-- Witness for C9 (amended): after the solo run, `A`'s one stored record
has no `id` property. -/
theorem c9_store_stripped_after_load_witness :
    loadData envSolo 2 = .ok (stateOf (loadData envSolo 2)) ∧
    "A" ∈ envSolo.sobjects ∧
    Value.vObj [("name", Value.vStr "x")] ∈
      lookupD (stateOf (loadData envSolo 2)).recordStore "A" [] ∧
    hasField (Value.vObj [("name", Value.vStr "x")]) "id" = false :=
  have hmem : Value.vObj [("name", Value.vStr "x")] ∈
      lookupD (stateOf (loadData envSolo 2)).recordStore "A" [] :=
    List.mem_singleton.mpr rfl
  ⟨rfl, by decide, hmem,
    c9_store_stripped_after_load envSolo 2 (stateOf (loadData envSolo 2)) rfl
      "A" (by decide) (Value.vObj [("name", Value.vStr "x")]) hmem⟩
